import Mathlib

/-!
Shallow embedding of `gix-pack/src/cache/delta/tree.rs`: the delta-tree
builder `Tree<T>`, its append API (`add_root`, `add_child`) and the
finalization step (`set_pack_entries_end_and_resolve_ref_offsets`),
together with proofs about its behaviour and invariants.

Mutable `&mut self` methods become explicit state passing: each operation
takes the tree and returns an `Outcome` holding the updated tree, an error
together with the tree left behind, or a panic (Rust `expect`).
-/

namespace GixPack

/- `crate::data::Offset` is `u64` in the source. Offsets are only ever
compared, never subjected to arithmetic that could overflow, so plain `Nat`
models pack offsets exactly; `Nat` parameters named `offset`,
`base_offset`, `pack_entries_end` and the like are pack offsets. -/

/-- The `as u32` truncation applied whenever a child index (a `usize`) is
stored into a `children : Vec<u32>` list in the source. -/
def toU32 (n : Nat) : Nat := n % 2 ^ 32

/-- One pack entry, `Item<T>` in the source. `children` holds the `u32`
indices (into the tree's `child_items`) of the entries that depend on this
item as their delta base. -/
structure Item (T : Type) where
  offset : Nat
  next_offset : Nat
  data : T
  children : List Nat
deriving DecidableEq

/-- `NodeKind`: what kind of node was last seen. -/
inductive NodeKind where
  | Root
  | Child
deriving DecidableEq

/-- The delta tree, `Tree<T>` in the source. -/
structure Tree (T : Type) where
  root_items : List (Item T)
  child_items : List (Item T)
  last_seen : Option NodeKind
  future_child_offsets : List (Nat × Nat)
deriving DecidableEq

/-- Modelled from the spec: the construction-time error type
(`cache::delta::Error`; its defining file is not among the sources). The
spec's `NonMonotonicOffset` failure is the `InvariantIncreasingPackOffset`
variant carrying the previous offset and the offending offset. -/
inductive Error where
  | InvariantIncreasingPackOffset (last_pack_offset : Nat) (pack_offset : Nat)
deriving DecidableEq

/-- Modelled from the spec: the finalize/traversal error type
(`cache::delta::traverse::Error`; its defining file is not among the
sources). `OutOfPackRefDelta` carries the base offset that could not be
resolved inside the pack. -/
inductive TraverseError where
  | OutOfPackRefDelta (base_pack_offset : Nat)
deriving DecidableEq

/-- Result of a `&mut self` method of the source: `ok` carries the updated
tree, `err` carries the error value together with the tree the method
leaves behind, and `panic` models a Rust `expect` failure. -/
inductive Outcome (ε σ : Type) where
  | ok (t : σ)
  | err (e : ε) (t : σ)
  | panic
deriving DecidableEq

/-- Effect of `items.last_mut().unwrap().next_offset = o` on a nonempty
list: replace the last element's `next_offset` by `o`. -/
def setLastNextOffset {T : Type} : List (Item T) → Nat → List (Item T)
  | [], _ => []
  | [it], o => [{ it with next_offset := o }]
  | it :: it' :: rest, o => it :: setLastNextOffset (it' :: rest) o

/-- In-place update of the element at index `i` (out-of-bounds is the
identity; all uses are in bounds). -/
def modifyIdx {T : Type} : List (Item T) → Nat → (Item T → Item T) → List (Item T)
  | [], _, _ => []
  | it :: rest, 0, f => f it :: rest
  | it :: rest, n + 1, f => it :: modifyIdx rest n f

/-- `self.children.push idx` of the source (the `as u32` truncation is
applied by the callers, as in the source). -/
def Item.pushChild {T : Type} (it : Item T) (idx : Nat) : Item T :=
  { it with children := it.children ++ [idx] }

/-- Core loop of Rust's `slice::binary_search_by_key` on the window
`[left, right)`, comparing each probed item's `offset` with `key`.
`fuel` only bounds the recursion depth; `fuel = items.length` always
suffices since the window shrinks at every step. -/
def bsearchGo {T : Type} (items : List (Item T)) (key : Nat) :
    Nat → Nat → Nat → Option Nat
  | 0, _, _ => none
  | fuel + 1, left, right =>
    if left < right then
      let mid := left + (right - left) / 2
      match items.get? mid with
      | none => none
      | some it =>
        if it.offset < key then bsearchGo items key fuel (mid + 1) right
        else if key < it.offset then bsearchGo items key fuel left mid
        else some mid
    else none

/-- `items.binary_search_by_key(&key, |i| i.offset)` of the source,
returning `some i` exactly for the `Ok(i)` case (the `Err` insertion point
is never used by the source). -/
def binarySearchByKey {T : Type} (items : List (Item T)) (key : Nat) : Option Nat :=
  bsearchGo items key items.length 0 items.length

/-- The offsets of a list of items, in order. -/
def offs {T : Type} (l : List (Item T)) : List Nat := l.map (·.offset)

/-- An item's fields other than `children`. -/
def stripItem {T : Type} (it : Item T) : Nat × Nat × T :=
  (it.offset, it.next_offset, it.data)

/-- All entries of all `children` lists of the tree, roots first. -/
def Tree.allChildren {T : Type} (t : Tree T) : List Nat :=
  ((t.root_items ++ t.child_items).map Item.children).flatten

/-- The most recently added item, as designated by `last_seen`. -/
def Tree.lastAdded {T : Type} (t : Tree T) : Option (Item T) :=
  match t.last_seen with
  | none => none
  | some NodeKind.Root => t.root_items.getLast?
  | some NodeKind.Child => t.child_items.getLast?

/-- `b` matches some item's offset in either the child-items array or the
root-items array. -/
def Tree.hasItemAtOffset {T : Type} (t : Tree T) (b : Nat) : Prop :=
  b ∈ offs t.child_items ∨ b ∈ offs t.root_items

instance {T : Type} (t : Tree T) (b : Nat) : Decidable (t.hasItemAtOffset b) := by
  unfold Tree.hasItemAtOffset; infer_instance

/-- `Tree::with_capacity`. The source's `exact_vec(num_objects / 2)` only
preallocates capacity (its defining file is not among the sources; modelled
from the spec: constructed empty with a capacity hint), so the tree starts
empty. -/
def Tree.with_capacity (T : Type) (_num_objects : Nat) : Except Error (Tree T) :=
  .ok { root_items := [], child_items := [], last_seen := none, future_child_offsets := [] }

/-- `Tree::num_items`. -/
def Tree.num_items {T : Type} (t : Tree T) : Nat :=
  t.root_items.length + t.child_items.length

/-- `Tree::take_root_and_child`, consuming the tree. -/
def Tree.take_root_and_child {T : Type} (t : Tree T) : List (Item T) × List (Item T) :=
  (t.root_items, t.child_items)

/-- The successful effect of the monotonicity check: close the span of the
most recently added item (as designated by `last_seen`) by setting its
`next_offset` to `o`. -/
def closeTree {T : Type} (t : Tree T) (o : Nat) : Tree T :=
  match t.last_seen with
  | none => t
  | some NodeKind.Root => { t with root_items := setLastNextOffset t.root_items o }
  | some NodeKind.Child => { t with child_items := setLastNextOffset t.child_items o }

/-- `Tree::assert_is_incrementing_and_update_next_offset`. Picks the array
named by `last_seen`; panics (`expect`) if that array is empty; fails with
`InvariantIncreasingPackOffset` (leaving the tree untouched) unless
`offset` strictly exceeds the last item's offset; otherwise closes the last
item's span by setting its `next_offset`. -/
def Tree.assert_is_incrementing_and_update_next_offset {T : Type}
    (t : Tree T) (offset : Nat) : Outcome Error (Tree T) :=
  match t.last_seen with
  | none => .ok t
  | some NodeKind.Root =>
    match t.root_items.getLast? with
    | none => .panic
    | some item =>
      if offset ≤ item.offset then
        .err (.InvariantIncreasingPackOffset item.offset offset) t
      else
        .ok { t with root_items := setLastNextOffset t.root_items offset }
  | some NodeKind.Child =>
    match t.child_items.getLast? with
    | none => .panic
    | some item =>
      if offset ≤ item.offset then
        .err (.InvariantIncreasingPackOffset item.offset offset) t
      else
        .ok { t with child_items := setLastNextOffset t.child_items offset }

/-- `Tree::add_root`. -/
def Tree.add_root {T : Type} (t : Tree T) (offset : Nat) (data : T) :
    Outcome Error (Tree T) :=
  match t.assert_is_incrementing_and_update_next_offset offset with
  | .panic => .panic
  | .err e u => .err e u
  | .ok u =>
    .ok { u with
      last_seen := some NodeKind.Root,
      root_items := u.root_items ++
        [{ offset := offset, next_offset := 0, data := data, children := [] }] }

/-- `Tree::add_child`. After the monotonicity check, the base is resolved
by binary-searching `child_items` then `root_items` by offset; a found
item's `children` gains the new child's (`u32`-truncated) index, otherwise
`(base_offset, next_child_index)` is pushed onto the forward-reference
worklist; in every case the new item is appended to `child_items`. -/
def Tree.add_child {T : Type} (t : Tree T) (base_offset : Nat) (offset : Nat)
    (data : T) : Outcome Error (Tree T) :=
  match t.assert_is_incrementing_and_update_next_offset offset with
  | .panic => .panic
  | .err e u => .err e u
  | .ok u =>
    let next_child_index := u.child_items.length
    let push : Item T → Item T := fun it => it.pushChild (toU32 next_child_index)
    let u2 : Tree T :=
      match binarySearchByKey u.child_items base_offset with
      | some i =>
        { u with child_items := modifyIdx u.child_items i push }
      | none =>
        match binarySearchByKey u.root_items base_offset with
        | some i =>
          { u with root_items := modifyIdx u.root_items i push }
        | none =>
          { u with future_child_offsets :=
              u.future_child_offsets ++ [(base_offset, next_child_index)] }
    .ok { u2 with
      last_seen := some NodeKind.Child,
      child_items := u2.child_items ++
        [{ offset := offset, next_offset := 0, data := data, children := [] }] }

/-- The drain loop of `set_pack_entries_end_and_resolve_ref_offsets`: for
each pending `(parent_offset, child_index)`, binary-search `child_items`
then `root_items`; a found item's `children` gains the (`u32`-truncated)
index; an unresolved entry aborts with `OutOfPackRefDelta` (the `drain`
has already emptied the worklist at that point). -/
def Tree.resolveRefOffsets {T : Type} (t : Tree T) :
    List (Nat × Nat) → Outcome TraverseError (Tree T)
  | [] => .ok t
  | (parent_offset, child_index) :: rest =>
    let push : Item T → Item T := fun it => it.pushChild (toU32 child_index)
    match binarySearchByKey t.child_items parent_offset with
    | some i =>
      Tree.resolveRefOffsets
        { t with child_items := modifyIdx t.child_items i push } rest
    | none =>
      match binarySearchByKey t.root_items parent_offset with
      | some i =>
        Tree.resolveRefOffsets
          { t with root_items := modifyIdx t.root_items i push } rest
      | none => .err (.OutOfPackRefDelta parent_offset) t

/-- `Tree::set_pack_entries_end_and_resolve_ref_offsets`: drain the
forward-reference worklist, then close the last item's span with
`pack_entries_end`; a monotonicity failure there is converted into a panic
by the source's `expect`. -/
def Tree.set_pack_entries_end_and_resolve_ref_offsets {T : Type} (t : Tree T)
    (pack_entries_end : Nat) : Outcome TraverseError (Tree T) :=
  match Tree.resolveRefOffsets { t with future_child_offsets := [] }
      t.future_child_offsets with
  | .panic => .panic
  | .err e u => .err e u
  | .ok u =>
    match u.assert_is_incrementing_and_update_next_offset pack_entries_end with
    | .ok v => .ok v
    | .err _ _ => .panic
    | .panic => .panic

/-- The spec's name for `set_pack_entries_end_and_resolve_ref_offsets`. -/
abbrev Tree.finalize {T : Type} (t : Tree T) (pack_entries_end : Nat) :
    Outcome TraverseError (Tree T) :=
  t.set_pack_entries_end_and_resolve_ref_offsets pack_entries_end

/-- The states of a tree produced by a sequence of successful API calls:
`with_capacity`, then any mix of `add_root`, `add_child` and finalize calls
that return `Ok` (both error variants are fatal per the spec, so
construction never continues from a failed call). -/
inductive Reachable {T : Type} : Tree T → Prop
  | init (n : Nat) (t : Tree T) :
      Tree.with_capacity T n = Except.ok t → Reachable t
  | add_root_ok (t t' : Tree T) (o : Nat) (d : T) :
      Reachable t → t.add_root o d = .ok t' → Reachable t'
  | add_child_ok (t t' : Tree T) (b o : Nat) (d : T) :
      Reachable t → t.add_child b o d = .ok t' → Reachable t'
  | finalize_ok (t t' : Tree T) (e : Nat) :
      Reachable t → t.set_pack_entries_end_and_resolve_ref_offsets e = .ok t' → Reachable t'

/-- The invariants maintained by every reachable tree: both arrays sorted
strictly by offset, the last-seen marker consistent with the arrays and an
upper bound on every stored offset, every stored child index in bounds for
`child_items`, and the multiset of stored child indices (children lists
plus truncated worklist entries) equal to the truncated range of
`child_items.length`. -/
structure Inv {T : Type} (t : Tree T) : Prop where
  sortedR : List.Pairwise (· < ·) (offs t.root_items)
  sortedC : List.Pairwise (· < ·) (offs t.child_items)
  empty_of_none : t.last_seen = none → t.root_items = [] ∧ t.child_items = []
  ub : ∀ prev, t.lastAdded = some prev →
    (∀ x ∈ offs t.root_items, x ≤ prev.offset) ∧
    (∀ x ∈ offs t.child_items, x ≤ prev.offset)
  bounds_children : ∀ c ∈ t.allChildren, c < t.child_items.length
  bounds_future : ∀ p ∈ t.future_child_offsets, p.2 < t.child_items.length
  countEq : ∀ j, t.allChildren.count j
      + (t.future_child_offsets.map (fun p => toU32 p.2)).count j
      = ((List.range t.child_items.length).map toU32).count j

/-- The tree obtained from `add_root(1, ())` followed by `n` calls
`add_child(1, k+2, ())` for `k = 0, …, n-1`: a single root at offset 1
whose children list holds the truncated indices `toU32 0, …, toU32 (n-1)`,
and `n` childless child items at offsets `2, …, n+1`. -/
def bigState (n : Nat) : Tree Unit :=
  { root_items := [⟨1, if n = 0 then 0 else 2, (), (List.range n).map toU32⟩],
    child_items := (List.range n).map (fun i => ⟨i + 2, if i + 1 = n then 0 else i + 3, (), []⟩),
    last_seen := if n = 0 then some NodeKind.Root else some NodeKind.Child,
    future_child_offsets := [] }

/-- `bigState n` after a successful finalize with `pack_entries_end = n + 2`
(for `n > 0`): the last child's span is closed, so child `i` spans
`i + 2 … i + 3`. -/
def bigFinal (n : Nat) : Tree Unit :=
  { root_items := [⟨1, 2, (), (List.range n).map toU32⟩],
    child_items := (List.range n).map (fun i => ⟨i + 2, i + 3, (), []⟩),
    last_seen := some NodeKind.Child,
    future_child_offsets := [] }

/-- A tree holding one root at offset 5 (the state after `add_root(5, ())` on
a fresh tree). -/
def tOneRoot : Tree Unit := ⟨[⟨5, 0, (), []⟩], [], some NodeKind.Root, []⟩

/-- `tOneRoot` after a successful finalize with `pack_entries_end = 9`. -/
def tClosedRoot : Tree Unit := ⟨[⟨5, 9, (), []⟩], [], some NodeKind.Root, []⟩

/-- The state after `add_root(10, ())`, `add_root(15, ())` on a fresh tree. -/
def tTwoRoots : Tree Unit := ⟨[⟨10, 15, (), []⟩, ⟨15, 0, (), []⟩], [], some NodeKind.Root, []⟩

/-- The state after `add_root(10, ())`, `add_child(999, 20, ())` on a fresh
tree: one pending forward reference whose base offset 999 matches no item. -/
def tRefUnresolved : Tree Unit :=
  ⟨[⟨10, 20, (), []⟩], [⟨20, 0, (), []⟩], some NodeKind.Child, [(999, 0)]⟩

/-- The state after `add_child(5, 5, ())` on a fresh tree: one child whose
declared base offset equals its own offset, pending in the worklist. -/
def tSelfBase : Tree Unit := ⟨[], [⟨5, 0, (), []⟩], some NodeKind.Child, [(5, 0)]⟩

/-- Successive states of the spec's concrete scenario
`add_root(12, dataA); add_child(12, 40, dataB); add_child(40, 90, dataC);
finalize(120)`, with `dataA = 100`, `dataB = 101`, `dataC = 102`. -/
def c7s1 : Tree Nat := ⟨[⟨12, 0, 100, []⟩], [], some NodeKind.Root, []⟩

/-- Second state of the concrete scenario. -/
def c7s2 : Tree Nat :=
  ⟨[⟨12, 40, 100, [0]⟩], [⟨40, 0, 101, []⟩], some NodeKind.Child, []⟩

/-- Third state of the concrete scenario. -/
def c7s3 : Tree Nat :=
  ⟨[⟨12, 40, 100, [0]⟩], [⟨40, 90, 101, [1]⟩, ⟨90, 0, 102, []⟩], some NodeKind.Child, []⟩

/-- Final state of the concrete scenario. -/
def c7s4 : Tree Nat :=
  ⟨[⟨12, 40, 100, [0]⟩], [⟨40, 90, 101, [1]⟩, ⟨90, 120, 102, []⟩], some NodeKind.Child, []⟩

/-! ## Helper lemmas about the list-level operations -/

theorem setLast_offs {T : Type} (l : List (Item T)) (o : Nat) :
    offs (setLastNextOffset l o) = offs l := by
  induction l with
  | nil => rfl
  | cons it rest ih =>
    cases rest with
    | nil => rfl
    | cons it' rest' =>
      simp only [setLastNextOffset, offs, List.map_cons] at ih ⊢
      exact congrArg _ ih

theorem offs_append {T : Type} (l₁ l₂ : List (Item T)) :
    offs (l₁ ++ l₂) = offs l₁ ++ offs l₂ := by
  simp [offs]

theorem setLast_childrenMap {T : Type} (l : List (Item T)) (o : Nat) :
    (setLastNextOffset l o).map Item.children = l.map Item.children := by
  induction l with
  | nil => rfl
  | cons it rest ih =>
    cases rest with
    | nil => rfl
    | cons it' rest' =>
      simp only [setLastNextOffset, List.map_cons] at ih ⊢
      exact congrArg _ ih

theorem setLast_stripItems {T : Type} (l : List (Item T)) (o : Nat) :
    (setLastNextOffset l o).map stripItem
      = (l.dropLast.map stripItem) ++ (l.getLast?.map fun it => stripItem { it with next_offset := o }).toList := by
  induction l with
  | nil => rfl
  | cons it rest ih =>
    cases rest with
    | nil => rfl
    | cons it' rest' =>
      simp only [setLastNextOffset, List.map_cons, List.dropLast_cons₂, List.getLast?_cons_cons] at ih ⊢
      rw [ih]
      simp

theorem setLast_length {T : Type} (l : List (Item T)) (o : Nat) :
    (setLastNextOffset l o).length = l.length := by
  have h := setLast_offs l o
  have := congrArg List.length h
  simpa [offs] using this

theorem setLast_eq_concat {T : Type} (l : List (Item T)) (o : Nat) (it : Item T)
    (h : l.getLast? = some it) :
    setLastNextOffset l o = l.dropLast ++ [{ it with next_offset := o }] := by
  induction l with
  | nil => simp at h
  | cons a rest ih =>
    cases rest with
    | nil =>
      simp only [List.getLast?_singleton, Option.some_inj] at h
      simp [setLastNextOffset, h]
    | cons a' rest' =>
      rw [List.getLast?_cons_cons] at h
      simp only [setLastNextOffset, List.dropLast_cons₂, List.cons_append]
      exact congrArg _ (ih h)

theorem modifyIdx_spec {T : Type} (l : List (Item T)) (i : Nat) (it : Item T)
    (f : Item T → Item T) (h : l.get? i = some it) :
    ∃ pre post, l = pre ++ it :: post ∧ pre.length = i ∧
      modifyIdx l i f = pre ++ f it :: post := by
  induction l generalizing i with
  | nil => simp at h
  | cons a rest ih =>
    cases i with
    | zero =>
      simp only [List.get?_cons_zero, Option.some_inj] at h
      exact ⟨[], rest, by simp [h], rfl, by simp [modifyIdx, h]⟩
    | succ n =>
      simp only [List.get?_cons_succ] at h
      obtain ⟨pre, post, hl, hlen, hm⟩ := ih n h
      exact ⟨a :: pre, post, by simp [hl], by simp [hlen], by simp [modifyIdx, hm]⟩

theorem modifyIdx_offs_pushChild {T : Type} (l : List (Item T)) (i : Nat) (c : Nat) :
    offs (modifyIdx l i (fun it => it.pushChild c)) = offs l := by
  induction l generalizing i with
  | nil => rfl
  | cons a rest ih =>
    cases i with
    | zero => simp [modifyIdx, offs, Item.pushChild]
    | succ n =>
      simp only [modifyIdx, offs, List.map_cons] at ih ⊢
      exact congrArg _ (ih n)

theorem modifyIdx_stripItems_pushChild {T : Type} (l : List (Item T)) (i : Nat) (c : Nat) :
    (modifyIdx l i (fun it => it.pushChild c)).map stripItem = l.map stripItem := by
  induction l generalizing i with
  | nil => rfl
  | cons a rest ih =>
    cases i with
    | zero => simp [modifyIdx, stripItem, Item.pushChild]
    | succ n =>
      simp only [modifyIdx, List.map_cons] at ih ⊢
      exact congrArg _ (ih n)

theorem offs_eq_of_stripItems_eq {T : Type} {l l' : List (Item T)}
    (h : l.map stripItem = l'.map stripItem) : offs l = offs l' := by
  have := congrArg (List.map Prod.fst) h
  simpa [offs, Function.comp, stripItem, List.map_map] using this

theorem length_eq_of_offs_eq {T : Type} {l l' : List (Item T)}
    (h : offs l = offs l') : l.length = l'.length := by
  have := congrArg List.length h
  simpa [offs] using this

/-! ## Helper lemmas about the binary search -/

theorem bsearchGo_congr {T : Type} {l₁ l₂ : List (Item T)}
    (h : offs l₁ = offs l₂) (key : Nat) (fuel left right : Nat) :
    bsearchGo l₁ key fuel left right = bsearchGo l₂ key fuel left right := by
  induction fuel generalizing left right with
  | zero => rfl
  | succ fuel ih =>
    simp only [bsearchGo]
    by_cases hlr : left < right
    · simp only [hlr, if_true]
      set mid := left + (right - left) / 2 with hmid
      have hget : Option.map Item.offset (l₁.get? mid) = Option.map Item.offset (l₂.get? mid) := by
        have h₁ := List.get?_map Item.offset l₁ mid
        have h₂ := List.get?_map Item.offset l₂ mid
        have : (offs l₁).get? mid = (offs l₂).get? mid := by rw [h]
        simpa [offs, h₁, h₂] using this
      cases h₁ : l₁.get? mid with
      | none =>
        cases h₂ : l₂.get? mid with
        | none => rfl
        | some it₂ => rw [h₁, h₂] at hget; simp at hget
      | some it₁ =>
        cases h₂ : l₂.get? mid with
        | none => rw [h₁, h₂] at hget; simp at hget
        | some it₂ =>
          rw [h₁, h₂] at hget
          simp only [Option.map_some', Option.some.injEq] at hget
          simp only [hget, ih]
    · simp [hlr]

theorem bsearchGo_sound {T : Type} (l : List (Item T)) (key : Nat)
    (fuel left right i : Nat) (h : bsearchGo l key fuel left right = some i) :
    ∃ it, l.get? i = some it ∧ it.offset = key := by
  induction fuel generalizing left right with
  | zero => simp [bsearchGo] at h
  | succ fuel ih =>
    simp only [bsearchGo] at h
    by_cases hlr : left < right
    · simp only [hlr, if_true] at h
      set mid := left + (right - left) / 2 with hmid
      cases hget : l.get? mid with
      | none => rw [hget] at h; simp at h
      | some it =>
        rw [hget] at h
        by_cases h₁ : it.offset < key
        · simp only [h₁, if_true] at h; exact ih _ _ h
        · by_cases h₂ : key < it.offset
          · simp only [h₁, h₂, if_false, if_true] at h; exact ih _ _ h
          · simp only [h₁, h₂, if_false, Option.some.injEq] at h
            refine ⟨it, h ▸ hget, ?_⟩
            omega
    · simp [hlr] at h

theorem pairwise_offs_mono {T : Type} {l : List (Item T)}
    (hs : List.Pairwise (· < ·) (offs l)) {a b : Nat} {ita itb : Item T}
    (ha : l.get? a = some ita) (hb : l.get? b = some itb) (hab : a < b) :
    ita.offset < itb.offset := by
  rw [List.get?_eq_getElem?] at ha hb
  obtain ⟨ha', hae⟩ := List.getElem?_eq_some.mp ha
  obtain ⟨hb', hbe⟩ := List.getElem?_eq_some.mp hb
  have hpw := List.pairwise_iff_getElem.mp hs a b
    (by simpa [offs] using ha') (by simpa [offs] using hb') hab
  simp only [offs, List.getElem_map] at hpw
  rw [hae, hbe] at hpw
  exact hpw

theorem bsearchGo_complete {T : Type} (l : List (Item T)) (key : Nat)
    (hs : List.Pairwise (· < ·) (offs l)) (fuel : Nat) :
    ∀ left right j it, l.get? j = some it → it.offset = key →
      left ≤ j → j < right → right ≤ l.length → right - left ≤ fuel →
      ∃ i, bsearchGo l key fuel left right = some i := by
  induction fuel with
  | zero => intro left right j it _ _ h₁ h₂ _ h₃; omega
  | succ fuel ih =>
    intro left right j it hj hkey hlj hjr hrl hfuel
    have hlr : left < right := by omega
    have hmidlt : left + (right - left) / 2 < l.length := by omega
    obtain ⟨itm, hmget⟩ : ∃ itm, l.get? (left + (right - left) / 2) = some itm :=
      ⟨l.get ⟨_, hmidlt⟩, List.get?_eq_get hmidlt⟩
    simp only [bsearchGo, hlr, if_true, hmget]
    by_cases h₁ : itm.offset < key
    · simp only [h₁, if_true]
      have hjmid : left + (right - left) / 2 < j := by
        by_contra hc
        push_neg at hc
        rcases Nat.lt_or_ge j (left + (right - left) / 2) with hlt | hge
        · have := pairwise_offs_mono hs hj hmget hlt
          omega
        · have hj' : j = left + (right - left) / 2 := by omega
          rw [hj', hmget] at hj
          have : itm = it := by exact (Option.some.injEq _ _).mp hj.symm |>.symm
          rw [this] at h₁; omega
      exact ih (left + (right - left) / 2 + 1) right j it hj hkey (by omega) hjr hrl (by omega)
    · by_cases h₂ : key < itm.offset
      · simp only [h₁, h₂, if_false, if_true]
        have hjmid : j < left + (right - left) / 2 := by
          by_contra hc
          push_neg at hc
          rcases Nat.lt_or_ge (left + (right - left) / 2) j with hlt | hge
          · have := pairwise_offs_mono hs hmget hj hlt
            omega
          · have hj' : j = left + (right - left) / 2 := by omega
            rw [hj', hmget] at hj
            have : itm = it := by exact (Option.some.injEq _ _).mp hj.symm |>.symm
            rw [this] at h₂; omega
        refine ih left (left + (right - left) / 2) j it hj hkey hlj hjmid (by omega) (by omega)
      · exact ⟨left + (right - left) / 2, by simp [h₁, h₂]⟩

theorem binarySearch_congr {T : Type} {l₁ l₂ : List (Item T)}
    (h : offs l₁ = offs l₂) (key : Nat) :
    binarySearchByKey l₁ key = binarySearchByKey l₂ key := by
  unfold binarySearchByKey
  rw [length_eq_of_offs_eq h]
  exact bsearchGo_congr h key _ 0 _

theorem binarySearch_sound {T : Type} {l : List (Item T)} {key : Nat} {i : Nat}
    (h : binarySearchByKey l key = some i) :
    ∃ it, l.get? i = some it ∧ it.offset = key :=
  bsearchGo_sound l key l.length 0 l.length i h

theorem binarySearch_none_of_not_mem {T : Type} {l : List (Item T)} {key : Nat}
    (h : key ∉ offs l) : binarySearchByKey l key = none := by
  cases hres : binarySearchByKey l key with
  | none => rfl
  | some i =>
    obtain ⟨it, hget, hoff⟩ := binarySearch_sound hres
    exfalso
    apply h
    have : it ∈ l := List.get?_mem hget
    exact hoff ▸ List.mem_map_of_mem Item.offset this

theorem binarySearch_complete {T : Type} {l : List (Item T)} {key : Nat}
    (hs : List.Pairwise (· < ·) (offs l)) (hmem : key ∈ offs l) :
    ∃ i, binarySearchByKey l key = some i := by
  obtain ⟨it, hit, hoff⟩ := List.mem_map.mp hmem
  obtain ⟨j, hj⟩ := List.mem_iff_get.mp hit
  have hjget : l.get? j = some it := by
    have := List.get?_eq_get j.isLt
    rw [this, hj]
  have hjlt : (j : Nat) < l.length := j.isLt
  exact bsearchGo_complete l key hs l.length 0 l.length j it hjget hoff
    (Nat.zero_le _) hjlt (le_refl _) (by omega)

/-! ## Characterization of the monotonicity check and the append API -/

theorem lastAdded_none_iff {T : Type} (t : Tree T) :
    t.lastAdded = none ↔
      t.last_seen = none ∨
      (t.last_seen = some NodeKind.Root ∧ t.root_items.getLast? = none) ∨
      (t.last_seen = some NodeKind.Child ∧ t.child_items.getLast? = none) := by
  unfold Tree.lastAdded
  cases h : t.last_seen with
  | none => simp
  | some k => cases k <;> simp

theorem assert_of_none {T : Type} (t : Tree T) (o : Nat) (h : t.last_seen = none) :
    t.assert_is_incrementing_and_update_next_offset o = .ok t := by
  unfold Tree.assert_is_incrementing_and_update_next_offset
  rw [h]

theorem lastAdded_of_root {T : Type} (t : Tree T) (h : t.last_seen = some NodeKind.Root) :
    t.lastAdded = t.root_items.getLast? := by
  unfold Tree.lastAdded
  rw [h]

theorem lastAdded_of_child {T : Type} (t : Tree T) (h : t.last_seen = some NodeKind.Child) :
    t.lastAdded = t.child_items.getLast? := by
  unfold Tree.lastAdded
  rw [h]

theorem lastAdded_of_none {T : Type} (t : Tree T) (h : t.last_seen = none) :
    t.lastAdded = none := by
  unfold Tree.lastAdded
  rw [h]

theorem assert_err {T : Type} (t : Tree T) (prev : Item T) (o : Nat)
    (hprev : t.lastAdded = some prev) (ho : o ≤ prev.offset) :
    t.assert_is_incrementing_and_update_next_offset o
      = .err (.InvariantIncreasingPackOffset prev.offset o) t := by
  cases hls : t.last_seen with
  | none => rw [lastAdded_of_none t hls] at hprev; simp at hprev
  | some k =>
    cases k with
    | Root =>
      rw [lastAdded_of_root t hls] at hprev
      simp [Tree.assert_is_incrementing_and_update_next_offset, hls, hprev, ho]
    | Child =>
      rw [lastAdded_of_child t hls] at hprev
      simp [Tree.assert_is_incrementing_and_update_next_offset, hls, hprev, ho]

theorem assert_ok {T : Type} (t : Tree T) (prev : Item T) (o : Nat)
    (hprev : t.lastAdded = some prev) (ho : prev.offset < o) :
    t.assert_is_incrementing_and_update_next_offset o = .ok (closeTree t o) := by
  have ho' : ¬o ≤ prev.offset := by omega
  cases hls : t.last_seen with
  | none => rw [lastAdded_of_none t hls] at hprev; simp at hprev
  | some k =>
    cases k with
    | Root =>
      rw [lastAdded_of_root t hls] at hprev
      simp [Tree.assert_is_incrementing_and_update_next_offset, closeTree, hls, hprev, ho']
    | Child =>
      rw [lastAdded_of_child t hls] at hprev
      simp [Tree.assert_is_incrementing_and_update_next_offset, closeTree, hls, hprev, ho']

theorem assert_ok_inv {T : Type} {t t' : Tree T} {o : Nat}
    (h : t.assert_is_incrementing_and_update_next_offset o = .ok t') :
    t' = closeTree t o ∧
      (t.last_seen = none ∨ ∃ prev, t.lastAdded = some prev ∧ prev.offset < o) := by
  cases hls : t.last_seen with
  | none =>
    rw [assert_of_none t o hls] at h
    simp only [Outcome.ok.injEq] at h
    refine ⟨?_, Or.inl rfl⟩
    rw [← h]
    simp [closeTree, hls]
  | some k =>
    cases k with
    | Root =>
      cases hlast : t.root_items.getLast? with
      | none =>
        simp [Tree.assert_is_incrementing_and_update_next_offset, hls, hlast] at h
      | some item =>
        by_cases hle : o ≤ item.offset
        · simp [Tree.assert_is_incrementing_and_update_next_offset, hls, hlast, hle] at h
        · simp only [Tree.assert_is_incrementing_and_update_next_offset, hls, hlast,
            if_neg hle, Outcome.ok.injEq] at h
          refine ⟨?_, Or.inr ⟨item, by rw [lastAdded_of_root t hls, hlast], by omega⟩⟩
          rw [← h]
          simp [closeTree, hls]
    | Child =>
      cases hlast : t.child_items.getLast? with
      | none =>
        simp [Tree.assert_is_incrementing_and_update_next_offset, hls, hlast] at h
      | some item =>
        by_cases hle : o ≤ item.offset
        · simp [Tree.assert_is_incrementing_and_update_next_offset, hls, hlast, hle] at h
        · simp only [Tree.assert_is_incrementing_and_update_next_offset, hls, hlast,
            if_neg hle, Outcome.ok.injEq] at h
          refine ⟨?_, Or.inr ⟨item, by rw [lastAdded_of_child t hls, hlast], by omega⟩⟩
          rw [← h]
          simp [closeTree, hls]

theorem closeTree_offsR {T : Type} (t : Tree T) (o : Nat) :
    offs (closeTree t o).root_items = offs t.root_items := by
  unfold closeTree
  cases t.last_seen with
  | none => rfl
  | some k => cases k <;> simp [setLast_offs]

theorem closeTree_offsC {T : Type} (t : Tree T) (o : Nat) :
    offs (closeTree t o).child_items = offs t.child_items := by
  unfold closeTree
  cases t.last_seen with
  | none => rfl
  | some k => cases k <;> simp [setLast_offs]

theorem closeTree_childrenR {T : Type} (t : Tree T) (o : Nat) :
    (closeTree t o).root_items.map Item.children = t.root_items.map Item.children := by
  unfold closeTree
  cases t.last_seen with
  | none => rfl
  | some k => cases k <;> simp [setLast_childrenMap]

theorem closeTree_childrenC {T : Type} (t : Tree T) (o : Nat) :
    (closeTree t o).child_items.map Item.children = t.child_items.map Item.children := by
  unfold closeTree
  cases t.last_seen with
  | none => rfl
  | some k => cases k <;> simp [setLast_childrenMap]

theorem closeTree_future {T : Type} (t : Tree T) (o : Nat) :
    (closeTree t o).future_child_offsets = t.future_child_offsets := by
  unfold closeTree
  cases t.last_seen with
  | none => rfl
  | some k => cases k <;> rfl

theorem closeTree_last_seen {T : Type} (t : Tree T) (o : Nat) :
    (closeTree t o).last_seen = t.last_seen := by
  unfold closeTree
  cases hls : t.last_seen with
  | none => simp [hls]
  | some k => cases k <;> rfl

theorem closeTree_lengthC {T : Type} (t : Tree T) (o : Nat) :
    (closeTree t o).child_items.length = t.child_items.length :=
  length_eq_of_offs_eq (closeTree_offsC t o)

theorem closeTree_lengthR {T : Type} (t : Tree T) (o : Nat) :
    (closeTree t o).root_items.length = t.root_items.length :=
  length_eq_of_offs_eq (closeTree_offsR t o)

theorem add_root_of_assert_ok {T : Type} {t u : Tree T} {o : Nat} (d : T)
    (h : t.assert_is_incrementing_and_update_next_offset o = .ok u) :
    t.add_root o d = .ok { u with
      last_seen := some NodeKind.Root,
      root_items := u.root_items ++
        [{ offset := o, next_offset := 0, data := d, children := [] }] } := by
  unfold Tree.add_root
  rw [h]

theorem add_root_of_assert_err {T : Type} {t u : Tree T} {o : Nat} {e : Error} (d : T)
    (h : t.assert_is_incrementing_and_update_next_offset o = .err e u) :
    t.add_root o d = .err e u := by
  unfold Tree.add_root
  rw [h]

theorem add_child_foundC {T : Type} {t u : Tree T} {b o : Nat} {i : Nat} (d : T)
    (h : t.assert_is_incrementing_and_update_next_offset o = .ok u)
    (hfc : binarySearchByKey u.child_items b = some i) :
    t.add_child b o d = .ok { u with
      last_seen := some NodeKind.Child,
      child_items := modifyIdx u.child_items i
          (fun it => it.pushChild (toU32 u.child_items.length)) ++
        [{ offset := o, next_offset := 0, data := d, children := [] }] } := by
  unfold Tree.add_child
  rw [h]
  simp only [hfc]

theorem add_child_foundR {T : Type} {t u : Tree T} {b o : Nat} {i : Nat} (d : T)
    (h : t.assert_is_incrementing_and_update_next_offset o = .ok u)
    (hfc : binarySearchByKey u.child_items b = none)
    (hfr : binarySearchByKey u.root_items b = some i) :
    t.add_child b o d = .ok { u with
      last_seen := some NodeKind.Child,
      root_items := modifyIdx u.root_items i
        (fun it => it.pushChild (toU32 u.child_items.length)),
      child_items := u.child_items ++
        [{ offset := o, next_offset := 0, data := d, children := [] }] } := by
  unfold Tree.add_child
  rw [h]
  simp only [hfc, hfr]

theorem add_child_missing {T : Type} {t u : Tree T} {b o : Nat} (d : T)
    (h : t.assert_is_incrementing_and_update_next_offset o = .ok u)
    (hfc : binarySearchByKey u.child_items b = none)
    (hfr : binarySearchByKey u.root_items b = none) :
    t.add_child b o d = .ok { u with
      last_seen := some NodeKind.Child,
      child_items := u.child_items ++
        [{ offset := o, next_offset := 0, data := d, children := [] }],
      future_child_offsets := u.future_child_offsets ++ [(b, u.child_items.length)] } := by
  unfold Tree.add_child
  rw [h]
  simp only [hfc, hfr]

theorem add_child_of_assert_err {T : Type} {t u : Tree T} {b o : Nat} {e : Error} (d : T)
    (h : t.assert_is_incrementing_and_update_next_offset o = .err e u) :
    t.add_child b o d = .err e u := by
  unfold Tree.add_child
  rw [h]

theorem add_child_ok_exists {T : Type} {t u : Tree T} {b o : Nat} (d : T)
    (h : t.assert_is_incrementing_and_update_next_offset o = .ok u) :
    ∃ t', t.add_child b o d = .ok t' := by
  cases hfc : binarySearchByKey u.child_items b with
  | some i => exact ⟨_, add_child_foundC d h hfc⟩
  | none =>
    cases hfr : binarySearchByKey u.root_items b with
    | some i => exact ⟨_, add_child_foundR d h hfc hfr⟩
    | none => exact ⟨_, add_child_missing d h hfc hfr⟩

/-! ## Helper lemmas about children multisets -/

theorem allChildren_split {T : Type} (t : Tree T) :
    t.allChildren = (t.root_items.map Item.children).flatten
      ++ (t.child_items.map Item.children).flatten := by
  unfold Tree.allChildren
  simp [List.map_append]

theorem flatten_modifyIdx_count {T : Type} (l : List (Item T)) (i : Nat) (it : Item T)
    (c j : Nat) (h : l.get? i = some it) :
    ((modifyIdx l i (fun x => x.pushChild c)).map Item.children).flatten.count j
      = ((l.map Item.children).flatten.count j) + ([c].count j) := by
  obtain ⟨pre, post, hl, -, hm⟩ := modifyIdx_spec l i it (fun x => x.pushChild c) h
  rw [hm, hl]
  simp [List.map_append, Item.pushChild, List.count_append, List.count_cons,
    List.count_singleton]
  omega

theorem flatten_modifyIdx_mem {T : Type} (l : List (Item T)) (i : Nat) (it : Item T)
    (c x : Nat) (h : l.get? i = some it)
    (hx : x ∈ ((modifyIdx l i (fun y => y.pushChild c)).map Item.children).flatten) :
    x ∈ (l.map Item.children).flatten ∨ x = c := by
  obtain ⟨pre, post, hl, -, hm⟩ := modifyIdx_spec l i it (fun y => y.pushChild c) h
  rw [hm] at hx
  rw [hl]
  simp only [List.map_append, List.map_cons, List.flatten_append, List.flatten_cons,
    List.mem_append, Item.pushChild] at hx ⊢
  rcases hx with h₁ | h₂ | h₃
  · exact Or.inl (Or.inl h₁)
  · rcases h₂ with h₂' | h₂''
    · exact Or.inl (Or.inr (Or.inl h₂'))
    · exact Or.inr (List.mem_singleton.mp h₂'')
  · exact Or.inl (Or.inr (Or.inr h₃))

theorem flatten_append_childless {T : Type} (l : List (Item T)) (o n : Nat) (d : T) :
    ((l ++ [({ offset := o, next_offset := n, data := d, children := [] } : Item T)]).map
      Item.children).flatten = (l.map Item.children).flatten := by
  simp

theorem flatten_children_congr {T : Type} {l l' : List (Item T)}
    (h : l.map Item.children = l'.map Item.children) :
    (l.map Item.children).flatten = (l'.map Item.children).flatten := by
  rw [h]

/-! ## Behaviour of the finalize drain loop -/

theorem resolve_ok_pres {T : Type} :
    ∀ (l : List (Nat × Nat)) (u u' : Tree T),
      Tree.resolveRefOffsets u l = .ok u' →
      u'.root_items.map stripItem = u.root_items.map stripItem ∧
      u'.child_items.map stripItem = u.child_items.map stripItem ∧
      u'.last_seen = u.last_seen ∧
      u'.future_child_offsets = u.future_child_offsets := by
  intro l
  induction l with
  | nil =>
    intro u u' h
    simp only [Tree.resolveRefOffsets, Outcome.ok.injEq] at h
    subst h
    exact ⟨rfl, rfl, rfl, rfl⟩
  | cons p rest ih =>
    intro u u' h
    obtain ⟨b, ci⟩ := p
    unfold Tree.resolveRefOffsets at h
    cases hfc : binarySearchByKey u.child_items b with
    | some i =>
      rw [hfc] at h
      simp only at h
      obtain ⟨h₁, h₂, h₃, h₄⟩ := ih _ _ h
      refine ⟨by simpa using h₁, ?_, by simpa using h₃, by simpa using h₄⟩
      rw [h₂]
      exact modifyIdx_stripItems_pushChild _ _ _
    | none =>
      rw [hfc] at h
      cases hfr : binarySearchByKey u.root_items b with
      | some i =>
        rw [hfr] at h
        simp only at h
        obtain ⟨h₁, h₂, h₃, h₄⟩ := ih _ _ h
        refine ⟨?_, by simpa using h₂, by simpa using h₃, by simpa using h₄⟩
        rw [h₁]
        exact modifyIdx_stripItems_pushChild _ _ _
      | none =>
        rw [hfr] at h
        simp at h

theorem resolve_ok_count {T : Type} :
    ∀ (l : List (Nat × Nat)) (u u' : Tree T),
      Tree.resolveRefOffsets u l = .ok u' →
      ∀ j, u'.allChildren.count j
        = u.allChildren.count j + ((l.map (fun p => toU32 p.2)).count j) := by
  intro l
  induction l with
  | nil =>
    intro u u' h j
    simp only [Tree.resolveRefOffsets, Outcome.ok.injEq] at h
    subst h
    simp
  | cons p rest ih =>
    intro u u' h j
    obtain ⟨b, ci⟩ := p
    unfold Tree.resolveRefOffsets at h
    cases hfc : binarySearchByKey u.child_items b with
    | some i =>
      rw [hfc] at h
      simp only at h
      obtain ⟨it, hget, -⟩ := binarySearch_sound hfc
      have hcount := flatten_modifyIdx_count u.child_items i it (toU32 ci) j hget
      have := ih _ _ h j
      rw [this]
      rw [allChildren_split, allChildren_split]
      simp only [List.count_append]
      simp only [List.map_cons, List.count_cons]
      rw [hcount]
      simp [List.count_singleton]
      omega
    | none =>
      rw [hfc] at h
      cases hfr : binarySearchByKey u.root_items b with
      | some i =>
        rw [hfr] at h
        simp only at h
        obtain ⟨it, hget, -⟩ := binarySearch_sound hfr
        have hcount := flatten_modifyIdx_count u.root_items i it (toU32 ci) j hget
        have := ih _ _ h j
        rw [this]
        rw [allChildren_split, allChildren_split]
        simp only [List.count_append]
        simp only [List.map_cons, List.count_cons]
        rw [hcount]
        simp [List.count_singleton]
        omega
      | none =>
        rw [hfr] at h
        simp at h

theorem resolve_ok_of_matched {T : Type} :
    ∀ (l : List (Nat × Nat)) (u : Tree T),
      List.Pairwise (· < ·) (offs u.root_items) →
      List.Pairwise (· < ·) (offs u.child_items) →
      (∀ p ∈ l, p.1 ∈ offs u.child_items ∨ p.1 ∈ offs u.root_items) →
      ∃ u', Tree.resolveRefOffsets u l = .ok u' := by
  intro l
  induction l with
  | nil => intro u _ _ _; exact ⟨u, rfl⟩
  | cons p rest ih =>
    intro u hsR hsC hm
    obtain ⟨b, ci⟩ := p
    have hhead := hm (b, ci) (List.mem_cons_self _ _)
    cases hfc : binarySearchByKey u.child_items b with
    | some i =>
      set u₁ : Tree T := { u with child_items := modifyIdx u.child_items i (fun it => it.pushChild (toU32 ci)) } with hu₁
      have hoffsC : offs u₁.child_items = offs u.child_items := modifyIdx_offs_pushChild _ _ _
      have hoffsR : offs u₁.root_items = offs u.root_items := rfl
      obtain ⟨u', hu'⟩ := ih u₁ (by rw [hoffsR]; exact hsR) (by rw [hoffsC]; exact hsC)
        (by intro q hq; rw [hoffsC, hoffsR]; exact hm q (List.mem_cons_of_mem _ hq))
      refine ⟨u', ?_⟩
      unfold Tree.resolveRefOffsets
      rw [hfc]
      exact hu'
    | none =>
      have hbroot : b ∈ offs u.root_items := by
        rcases hhead with hc | hr
        · obtain ⟨i, hi⟩ := binarySearch_complete hsC hc
          rw [hfc] at hi
          exact absurd hi (by simp)
        · exact hr
      obtain ⟨i, hi⟩ := binarySearch_complete hsR hbroot
      set u₁ : Tree T := { u with root_items := modifyIdx u.root_items i (fun it => it.pushChild (toU32 ci)) } with hu₁
      have hoffsR : offs u₁.root_items = offs u.root_items := modifyIdx_offs_pushChild _ _ _
      have hoffsC : offs u₁.child_items = offs u.child_items := rfl
      obtain ⟨u', hu'⟩ := ih u₁ (by rw [hoffsR]; exact hsR) (by rw [hoffsC]; exact hsC)
        (by intro q hq; rw [hoffsC, hoffsR]; exact hm q (List.mem_cons_of_mem _ hq))
      refine ⟨u', ?_⟩
      unfold Tree.resolveRefOffsets
      rw [hfc, hi]
      exact hu'

theorem resolve_err_of_unmatched {T : Type} :
    ∀ (l : List (Nat × Nat)) (u : Tree T),
      List.Pairwise (· < ·) (offs u.root_items) →
      List.Pairwise (· < ·) (offs u.child_items) →
      (∃ p ∈ l, p.1 ∉ offs u.child_items ∧ p.1 ∉ offs u.root_items) →
      ∃ b ci u', (b, ci) ∈ l ∧ b ∉ offs u.child_items ∧ b ∉ offs u.root_items ∧
        Tree.resolveRefOffsets u l = .err (.OutOfPackRefDelta b) u' := by
  intro l
  induction l with
  | nil => intro u _ _ hx; simp at hx
  | cons p rest ih =>
    intro u hsR hsC hx
    obtain ⟨b, ci⟩ := p
    cases hfc : binarySearchByKey u.child_items b with
    | some i =>
      have hbc : b ∈ offs u.child_items := by
        obtain ⟨it, hget, hoff⟩ := binarySearch_sound hfc
        exact hoff ▸ List.mem_map_of_mem Item.offset (List.get?_mem hget)
      set u₁ : Tree T := { u with child_items := modifyIdx u.child_items i (fun it => it.pushChild (toU32 ci)) } with hu₁
      have hoffsC : offs u₁.child_items = offs u.child_items := modifyIdx_offs_pushChild _ _ _
      have hoffsR : offs u₁.root_items = offs u.root_items := rfl
      have hx' : ∃ p ∈ rest, p.1 ∉ offs u₁.child_items ∧ p.1 ∉ offs u₁.root_items := by
        obtain ⟨q, hq, hq₁, hq₂⟩ := hx
        rcases List.mem_cons.mp hq with rfl | hq'
        · exact absurd hbc hq₁
        · exact ⟨q, hq', by rw [hoffsC]; exact hq₁, by rw [hoffsR]; exact hq₂⟩
      obtain ⟨b', ci', u', hmem, h₁, h₂, hres⟩ := ih u₁ (by rw [hoffsR]; exact hsR)
        (by rw [hoffsC]; exact hsC) hx'
      refine ⟨b', ci', u', List.mem_cons_of_mem _ hmem, by rw [← hoffsC]; exact h₁,
        by rw [← hoffsR]; exact h₂, ?_⟩
      unfold Tree.resolveRefOffsets
      rw [hfc]
      exact hres
    | none =>
      cases hfr : binarySearchByKey u.root_items b with
      | some i =>
        have hbr : b ∈ offs u.root_items := by
          obtain ⟨it, hget, hoff⟩ := binarySearch_sound hfr
          exact hoff ▸ List.mem_map_of_mem Item.offset (List.get?_mem hget)
        set u₁ : Tree T := { u with root_items := modifyIdx u.root_items i (fun it => it.pushChild (toU32 ci)) } with hu₁
        have hoffsR : offs u₁.root_items = offs u.root_items := modifyIdx_offs_pushChild _ _ _
        have hoffsC : offs u₁.child_items = offs u.child_items := rfl
        have hx' : ∃ p ∈ rest, p.1 ∉ offs u₁.child_items ∧ p.1 ∉ offs u₁.root_items := by
          obtain ⟨q, hq, hq₁, hq₂⟩ := hx
          rcases List.mem_cons.mp hq with rfl | hq'
          · exact absurd hbr hq₂
          · exact ⟨q, hq', by rw [hoffsC]; exact hq₁, by rw [hoffsR]; exact hq₂⟩
        obtain ⟨b', ci', u', hmem, h₁, h₂, hres⟩ := ih u₁ (by rw [hoffsR]; exact hsR)
          (by rw [hoffsC]; exact hsC) hx'
        refine ⟨b', ci', u', List.mem_cons_of_mem _ hmem, by rw [← hoffsC]; exact h₁,
          by rw [← hoffsR]; exact h₂, ?_⟩
        unfold Tree.resolveRefOffsets
        rw [hfc, hfr]
        exact hres
      | none =>
        have hbc : b ∉ offs u.child_items := by
          intro hc
          obtain ⟨i, hi⟩ := binarySearch_complete hsC hc
          rw [hfc] at hi
          exact absurd hi (by simp)
        have hbr : b ∉ offs u.root_items := by
          intro hr
          obtain ⟨i, hi⟩ := binarySearch_complete hsR hr
          rw [hfr] at hi
          exact absurd hi (by simp)
        refine ⟨b, ci, u, List.mem_cons_self _ _, hbc, hbr, ?_⟩
        unfold Tree.resolveRefOffsets
        rw [hfc, hfr]

theorem lastAdded_strip_congr {T : Type} {t u : Tree T}
    (hR : t.root_items.map stripItem = u.root_items.map stripItem)
    (hC : t.child_items.map stripItem = u.child_items.map stripItem)
    (hls : t.last_seen = u.last_seen) :
    Option.map stripItem t.lastAdded = Option.map stripItem u.lastAdded := by
  unfold Tree.lastAdded
  rw [hls]
  cases u.last_seen with
  | none => rfl
  | some k =>
    cases k with
    | Root => rw [← List.getLast?_map, ← List.getLast?_map, hR]
    | Child => rw [← List.getLast?_map, ← List.getLast?_map, hC]

/-! ## Preservation of the invariants -/

theorem getLast?_offset_congr {T : Type} {l l' : List (Item T)}
    (h : offs l = offs l') :
    Option.map Item.offset l.getLast? = Option.map Item.offset l'.getLast? := by
  rw [← List.getLast?_map, ← List.getLast?_map]
  exact congrArg List.getLast? h

theorem lastAdded_offset_congr {T : Type} {t u : Tree T}
    (hoR : offs u.root_items = offs t.root_items)
    (hoC : offs u.child_items = offs t.child_items)
    (hls : u.last_seen = t.last_seen) :
    Option.map Item.offset u.lastAdded = Option.map Item.offset t.lastAdded := by
  unfold Tree.lastAdded
  rw [hls]
  cases t.last_seen with
  | none => rfl
  | some k =>
    cases k with
    | Root => exact getLast?_offset_congr hoR
    | Child => exact getLast?_offset_congr hoC

theorem allChildren_congr {T : Type} {t u : Tree T}
    (hcR : u.root_items.map Item.children = t.root_items.map Item.children)
    (hcC : u.child_items.map Item.children = t.child_items.map Item.children) :
    u.allChildren = t.allChildren := by
  rw [allChildren_split, allChildren_split, hcR, hcC]

theorem Inv_congr {T : Type} {t u : Tree T}
    (hoR : offs u.root_items = offs t.root_items)
    (hoC : offs u.child_items = offs t.child_items)
    (hcR : u.root_items.map Item.children = t.root_items.map Item.children)
    (hcC : u.child_items.map Item.children = t.child_items.map Item.children)
    (hls : u.last_seen = t.last_seen)
    (hf : u.future_child_offsets = t.future_child_offsets)
    (h : Inv t) : Inv u := by
  have hlen : u.child_items.length = t.child_items.length := length_eq_of_offs_eq hoC
  have hac : u.allChildren = t.allChildren := allChildren_congr hcR hcC
  constructor
  · rw [hoR]; exact h.sortedR
  · rw [hoC]; exact h.sortedC
  · intro hn
    rw [hls] at hn
    obtain ⟨h₁, h₂⟩ := h.empty_of_none hn
    constructor
    · have : offs u.root_items = [] := by rw [hoR, h₁]; rfl
      simpa [offs] using this
    · have : offs u.child_items = [] := by rw [hoC, h₂]; rfl
      simpa [offs] using this
  · intro prev hprev
    have hopt := lastAdded_offset_congr hoR hoC hls
    rw [hprev] at hopt
    cases hlast : t.lastAdded with
    | none => rw [hlast] at hopt; simp at hopt
    | some prev' =>
      rw [hlast] at hopt
      simp only [Option.map_some', Option.some.injEq] at hopt
      obtain ⟨hb₁, hb₂⟩ := h.ub prev' hlast
      refine ⟨?_, ?_⟩
      · intro x hx; rw [hoR] at hx; rw [hopt]; exact hb₁ x hx
      · intro x hx; rw [hoC] at hx; rw [hopt]; exact hb₂ x hx
  · intro c hc
    rw [hac] at hc
    rw [hlen]
    exact h.bounds_children c hc
  · intro p hp
    rw [hf] at hp
    rw [hlen]
    exact h.bounds_future p hp
  · intro j
    rw [hac, hf, hlen]
    exact h.countEq j

theorem Inv_closeTree {T : Type} {t : Tree T} (h : Inv t) (o : Nat) :
    Inv (closeTree t o) :=
  Inv_congr (closeTree_offsR t o) (closeTree_offsC t o) (closeTree_childrenR t o)
    (closeTree_childrenC t o) (closeTree_last_seen t o) (closeTree_future t o) h

theorem Inv_append_root {T : Type} {u : Tree T} (h : Inv u) (o : Nat) (d : T)
    (hallR : ∀ x ∈ offs u.root_items, x < o)
    (hallC : ∀ x ∈ offs u.child_items, x < o) :
    Inv { u with
      last_seen := some NodeKind.Root,
      root_items := u.root_items ++
        [{ offset := o, next_offset := 0, data := d, children := [] }] } := by
  have hoffs : offs (u.root_items ++
      [({ offset := o, next_offset := 0, data := d, children := [] } : Item T)])
      = offs u.root_items ++ [o] := by simp [offs]
  constructor
  · show List.Pairwise (· < ·) (offs (u.root_items ++ _))
    rw [hoffs]
    rw [List.pairwise_append]
    exact ⟨h.sortedR, List.pairwise_singleton _ _,
      fun a ha b hb => by rw [List.mem_singleton.mp hb]; exact hallR a ha⟩
  · exact h.sortedC
  · intro hn; simp at hn
  · intro prev hprev
    unfold Tree.lastAdded at hprev
    simp only [List.getLast?_concat, Option.some.injEq] at hprev
    subst hprev
    constructor
    · intro x hx
      rw [hoffs] at hx
      rcases List.mem_append.mp hx with hx' | hx''
      · exact Nat.le_of_lt (hallR x hx')
      · simp at hx'' ⊢; omega
    · intro x hx
      exact Nat.le_of_lt (hallC x hx)
  · intro c hc
    rw [allChildren_split] at hc
    simp only [List.map_append, List.map_cons, List.map_nil, List.flatten_append] at hc
    have hc' : c ∈ u.allChildren := by
      rw [allChildren_split]
      simpa using hc
    exact h.bounds_children c hc'
  · exact h.bounds_future
  · intro j
    have := h.countEq j
    have hac : Tree.allChildren { u with
        last_seen := some NodeKind.Root,
        root_items := u.root_items ++
          [{ offset := o, next_offset := 0, data := d, children := [] }] }
        = u.allChildren := by
      rw [allChildren_split, allChildren_split]
      simp
    rw [hac]
    exact this

theorem Inv_add_child_case_foundC {T : Type} {u : Tree T} (h : Inv u) (o : Nat) (d : T)
    {i : Nat} {it : Item T} (hget : u.child_items.get? i = some it)
    (hallR : ∀ x ∈ offs u.root_items, x < o)
    (hallC : ∀ x ∈ offs u.child_items, x < o) :
    Inv { u with
      last_seen := some NodeKind.Child,
      child_items := modifyIdx u.child_items i
          (fun x => x.pushChild (toU32 u.child_items.length)) ++
        [{ offset := o, next_offset := 0, data := d, children := [] }] } := by
  set n := u.child_items.length with hn
  set modified := modifyIdx u.child_items i (fun x => x.pushChild (toU32 n)) with hmod
  have hoffsmod : offs modified = offs u.child_items := modifyIdx_offs_pushChild _ _ _
  have hlenmod : modified.length = u.child_items.length := length_eq_of_offs_eq hoffsmod
  have hoffs : offs (modified ++
      [({ offset := o, next_offset := 0, data := d, children := [] } : Item T)])
      = offs u.child_items ++ [o] := by
    rw [offs_append, hoffsmod]
    simp [offs]
  have hlen : (modified ++
      [({ offset := o, next_offset := 0, data := d, children := [] } : Item T)]).length
      = n + 1 := by simp [hlenmod]
  have hflat : ((modified ++
        [({ offset := o, next_offset := 0, data := d, children := [] } : Item T)]).map
      Item.children).flatten = (modified.map Item.children).flatten :=
    flatten_append_childless _ _ _ _
  constructor
  · exact h.sortedR
  · show List.Pairwise (· < ·) (offs (modified ++ _))
    rw [hoffs, List.pairwise_append]
    exact ⟨h.sortedC, List.pairwise_singleton _ _,
      fun a ha b hb => by rw [List.mem_singleton.mp hb]; exact hallC a ha⟩
  · intro hn'; simp at hn'
  · intro prev hprev
    unfold Tree.lastAdded at hprev
    simp only [List.getLast?_concat, Option.some.injEq] at hprev
    subst hprev
    refine ⟨fun x hx => Nat.le_of_lt (hallR x hx), fun x hx => ?_⟩
    rw [hoffs] at hx
    rcases List.mem_append.mp hx with hx' | hx''
    · exact Nat.le_of_lt (hallC x hx')
    · simp at hx'' ⊢; omega
  · intro c hc
    rw [allChildren_split] at hc
    simp only at hc
    rw [hflat] at hc
    rw [hlen]
    rcases List.mem_append.mp hc with hcr | hcc
    · have : c ∈ u.allChildren := by rw [allChildren_split]; exact List.mem_append_left _ hcr
      have := h.bounds_children c this
      omega
    · rw [hmod] at hcc
      rcases flatten_modifyIdx_mem u.child_items i it (toU32 n) c hget hcc with hold | hnew
      · have : c ∈ u.allChildren := by rw [allChildren_split]; exact List.mem_append_right _ hold
        have := h.bounds_children c this
        omega
      · have : toU32 n ≤ n := Nat.mod_le _ _
        omega
  · intro p hp
    simp only at hp
    have := h.bounds_future p hp
    rw [hlen]
    omega
  · intro j
    have hcnt := flatten_modifyIdx_count u.child_items i it (toU32 n) j hget
    rw [← hmod] at hcnt
    have hbase := h.countEq j
    rw [allChildren_split]
    simp only
    rw [hflat]
    simp only [List.count_append]
    rw [hcnt]
    rw [allChildren_split] at hbase
    simp only [List.count_append] at hbase
    rw [hlen, List.range_succ, List.map_append, List.count_append, List.map_cons, List.map_nil]
    rw [← hn] at hbase
    omega

theorem Inv_add_child_case_foundR {T : Type} {u : Tree T} (h : Inv u) (o : Nat) (d : T)
    {i : Nat} {it : Item T} (hget : u.root_items.get? i = some it)
    (hallR : ∀ x ∈ offs u.root_items, x < o)
    (hallC : ∀ x ∈ offs u.child_items, x < o) :
    Inv { u with
      last_seen := some NodeKind.Child,
      root_items := modifyIdx u.root_items i
        (fun x => x.pushChild (toU32 u.child_items.length)),
      child_items := u.child_items ++
        [{ offset := o, next_offset := 0, data := d, children := [] }] } := by
  set n := u.child_items.length with hn
  set modified := modifyIdx u.root_items i (fun x => x.pushChild (toU32 n)) with hmod
  have hoffsmod : offs modified = offs u.root_items := modifyIdx_offs_pushChild _ _ _
  have hoffs : offs (u.child_items ++
      [({ offset := o, next_offset := 0, data := d, children := [] } : Item T)])
      = offs u.child_items ++ [o] := by simp [offs]
  have hlen : (u.child_items ++
      [({ offset := o, next_offset := 0, data := d, children := [] } : Item T)]).length
      = n + 1 := by simp
  have hflat : ((u.child_items ++
        [({ offset := o, next_offset := 0, data := d, children := [] } : Item T)]).map
      Item.children).flatten = (u.child_items.map Item.children).flatten :=
    flatten_append_childless _ _ _ _
  constructor
  · show List.Pairwise (· < ·) (offs modified)
    rw [hoffsmod]; exact h.sortedR
  · show List.Pairwise (· < ·) (offs (u.child_items ++ _))
    rw [hoffs, List.pairwise_append]
    exact ⟨h.sortedC, List.pairwise_singleton _ _,
      fun a ha b hb => by rw [List.mem_singleton.mp hb]; exact hallC a ha⟩
  · intro hn'; simp at hn'
  · intro prev hprev
    unfold Tree.lastAdded at hprev
    simp only [List.getLast?_concat, Option.some.injEq] at hprev
    subst hprev
    refine ⟨fun x hx => ?_, fun x hx => ?_⟩
    · rw [hoffsmod] at hx
      exact Nat.le_of_lt (hallR x hx)
    · rw [hoffs] at hx
      rcases List.mem_append.mp hx with hx' | hx''
      · exact Nat.le_of_lt (hallC x hx')
      · simp at hx'' ⊢; omega
  · intro c hc
    rw [allChildren_split] at hc
    simp only at hc
    rw [hflat] at hc
    rw [hlen]
    rcases List.mem_append.mp hc with hcr | hcc
    · rw [hmod] at hcr
      rcases flatten_modifyIdx_mem u.root_items i it (toU32 n) c hget hcr with hold | hnew
      · have : c ∈ u.allChildren := by rw [allChildren_split]; exact List.mem_append_left _ hold
        have := h.bounds_children c this
        omega
      · have : toU32 n ≤ n := Nat.mod_le _ _
        omega
    · have : c ∈ u.allChildren := by rw [allChildren_split]; exact List.mem_append_right _ hcc
      have := h.bounds_children c this
      omega
  · intro p hp
    simp only at hp
    have := h.bounds_future p hp
    rw [hlen]
    omega
  · intro j
    have hcnt := flatten_modifyIdx_count u.root_items i it (toU32 n) j hget
    rw [← hmod] at hcnt
    have hbase := h.countEq j
    rw [allChildren_split]
    simp only
    rw [hflat]
    simp only [List.count_append]
    rw [hcnt]
    rw [allChildren_split] at hbase
    simp only [List.count_append] at hbase
    rw [hlen, List.range_succ, List.map_append, List.count_append, List.map_cons, List.map_nil]
    rw [← hn] at hbase
    omega

theorem Inv_add_child_case_missing {T : Type} {u : Tree T} (h : Inv u) (b o : Nat) (d : T)
    (hallR : ∀ x ∈ offs u.root_items, x < o)
    (hallC : ∀ x ∈ offs u.child_items, x < o) :
    Inv { u with
      last_seen := some NodeKind.Child,
      child_items := u.child_items ++
        [{ offset := o, next_offset := 0, data := d, children := [] }],
      future_child_offsets := u.future_child_offsets ++ [(b, u.child_items.length)] } := by
  set n := u.child_items.length with hn
  have hoffs : offs (u.child_items ++
      [({ offset := o, next_offset := 0, data := d, children := [] } : Item T)])
      = offs u.child_items ++ [o] := by simp [offs]
  have hlen : (u.child_items ++
      [({ offset := o, next_offset := 0, data := d, children := [] } : Item T)]).length
      = n + 1 := by simp
  have hflat : ((u.child_items ++
        [({ offset := o, next_offset := 0, data := d, children := [] } : Item T)]).map
      Item.children).flatten = (u.child_items.map Item.children).flatten :=
    flatten_append_childless _ _ _ _
  constructor
  · exact h.sortedR
  · show List.Pairwise (· < ·) (offs (u.child_items ++ _))
    rw [hoffs, List.pairwise_append]
    exact ⟨h.sortedC, List.pairwise_singleton _ _,
      fun a ha b hb => by rw [List.mem_singleton.mp hb]; exact hallC a ha⟩
  · intro hn'; simp at hn'
  · intro prev hprev
    unfold Tree.lastAdded at hprev
    simp only [List.getLast?_concat, Option.some.injEq] at hprev
    subst hprev
    refine ⟨fun x hx => Nat.le_of_lt (hallR x hx), fun x hx => ?_⟩
    rw [hoffs] at hx
    rcases List.mem_append.mp hx with hx' | hx''
    · exact Nat.le_of_lt (hallC x hx')
    · simp at hx'' ⊢; omega
  · intro c hc
    rw [allChildren_split] at hc
    simp only at hc
    rw [hflat] at hc
    rw [hlen]
    have : c ∈ u.allChildren := by rw [allChildren_split]; exact hc
    have := h.bounds_children c this
    omega
  · intro p hp
    simp only at hp
    rcases List.mem_append.mp hp with hp' | hp''
    · have := h.bounds_future p hp'
      rw [hlen]
      omega
    · rw [List.mem_singleton.mp hp'', hlen]
      simp
  · intro j
    have hbase := h.countEq j
    rw [allChildren_split]
    simp only
    rw [hflat]
    simp only [List.count_append, List.map_append, List.map_cons, List.map_nil]
    rw [allChildren_split] at hbase
    simp only [List.count_append] at hbase
    rw [hlen, List.range_succ, List.map_append, List.count_append, List.map_cons, List.map_nil]
    rw [← hn] at hbase
    omega

theorem Inv_empty {T : Type} : Inv (⟨[], [], none, []⟩ : Tree T) := by
  constructor
  · exact List.Pairwise.nil
  · exact List.Pairwise.nil
  · intro _; exact ⟨rfl, rfl⟩
  · intro prev hprev; simp [Tree.lastAdded] at hprev
  · intro c hc; simp [Tree.allChildren] at hc
  · intro p hp; simp at hp
  · intro j; simp [Tree.allChildren]

theorem hall_of_assert_cases {T : Type} {t : Tree T} {o : Nat} (h : Inv t)
    (hc : t.last_seen = none ∨ ∃ prev, t.lastAdded = some prev ∧ prev.offset < o) :
    (∀ x ∈ offs t.root_items, x < o) ∧ (∀ x ∈ offs t.child_items, x < o) := by
  rcases hc with hnone | ⟨prev, hprev, hlt⟩
  · obtain ⟨h₁, h₂⟩ := h.empty_of_none hnone
    rw [h₁, h₂]
    exact ⟨by simp [offs], by simp [offs]⟩
  · obtain ⟨hb₁, hb₂⟩ := h.ub prev hprev
    exact ⟨fun x hx => by have := hb₁ x hx; omega, fun x hx => by have := hb₂ x hx; omega⟩

theorem inv_add_root {T : Type} {t t' : Tree T} {o : Nat} {d : T}
    (h : Inv t) (hok : t.add_root o d = .ok t') : Inv t' := by
  unfold Tree.add_root at hok
  cases hassert : t.assert_is_incrementing_and_update_next_offset o with
  | panic => rw [hassert] at hok; simp at hok
  | err e u => rw [hassert] at hok; simp at hok
  | ok u =>
    rw [hassert] at hok
    simp only [Outcome.ok.injEq] at hok
    obtain ⟨hu, hcases⟩ := assert_ok_inv hassert
    subst hu
    obtain ⟨hallR, hallC⟩ := hall_of_assert_cases h hcases
    have hinvu : Inv (closeTree t o) := Inv_closeTree h o
    have hallR' : ∀ x ∈ offs (closeTree t o).root_items, x < o := by
      rw [closeTree_offsR]; exact hallR
    have hallC' : ∀ x ∈ offs (closeTree t o).child_items, x < o := by
      rw [closeTree_offsC]; exact hallC
    rw [← hok]
    exact Inv_append_root hinvu o d hallR' hallC'

theorem inv_add_child {T : Type} {t t' : Tree T} {b o : Nat} {d : T}
    (h : Inv t) (hok : t.add_child b o d = .ok t') : Inv t' := by
  cases hassert : t.assert_is_incrementing_and_update_next_offset o with
  | panic => unfold Tree.add_child at hok; rw [hassert] at hok; simp at hok
  | err e u => unfold Tree.add_child at hok; rw [hassert] at hok; simp at hok
  | ok u =>
    obtain ⟨hu, hcases⟩ := assert_ok_inv hassert
    subst hu
    obtain ⟨hallR, hallC⟩ := hall_of_assert_cases h hcases
    have hinvu : Inv (closeTree t o) := Inv_closeTree h o
    have hallR' : ∀ x ∈ offs (closeTree t o).root_items, x < o := by
      rw [closeTree_offsR]; exact hallR
    have hallC' : ∀ x ∈ offs (closeTree t o).child_items, x < o := by
      rw [closeTree_offsC]; exact hallC
    cases hfc : binarySearchByKey (closeTree t o).child_items b with
    | some i =>
      rw [add_child_foundC d hassert hfc] at hok
      simp only [Outcome.ok.injEq] at hok
      obtain ⟨it, hget, -⟩ := binarySearch_sound hfc
      rw [← hok]
      exact Inv_add_child_case_foundC hinvu o d hget hallR' hallC'
    | none =>
      cases hfr : binarySearchByKey (closeTree t o).root_items b with
      | some i =>
        rw [add_child_foundR d hassert hfc hfr] at hok
        simp only [Outcome.ok.injEq] at hok
        obtain ⟨it, hget, -⟩ := binarySearch_sound hfr
        rw [← hok]
        exact Inv_add_child_case_foundR hinvu o d hget hallR' hallC'
      | none =>
        rw [add_child_missing d hassert hfc hfr] at hok
        simp only [Outcome.ok.injEq] at hok
        rw [← hok]
        exact Inv_add_child_case_missing hinvu b o d hallR' hallC'

theorem finalize_ok_inv {T : Type} {t t' : Tree T} {e : Nat}
    (h : t.set_pack_entries_end_and_resolve_ref_offsets e = .ok t') :
    ∃ u, Tree.resolveRefOffsets { t with future_child_offsets := [] }
        t.future_child_offsets = .ok u ∧
      u.assert_is_incrementing_and_update_next_offset e = .ok t' := by
  unfold Tree.set_pack_entries_end_and_resolve_ref_offsets at h
  cases hres : Tree.resolveRefOffsets { t with future_child_offsets := [] }
      t.future_child_offsets with
  | panic => rw [hres] at h; simp at h
  | err e' u => rw [hres] at h; simp at h
  | ok u =>
    rw [hres] at h
    have h' : (match u.assert_is_incrementing_and_update_next_offset e with
        | Outcome.ok v => Outcome.ok v
        | Outcome.err _ _ => Outcome.panic
        | Outcome.panic => Outcome.panic) = Outcome.ok t' := h
    cases hass : u.assert_is_incrementing_and_update_next_offset e with
    | panic =>
      rw [hass] at h'
      exact absurd (show (Outcome.panic : Outcome TraverseError (Tree T))
        = Outcome.ok t' from h') (by simp)
    | err e' v =>
      rw [hass] at h'
      exact absurd (show (Outcome.panic : Outcome TraverseError (Tree T))
        = Outcome.ok t' from h') (by simp)
    | ok v =>
      rw [hass] at h'
      have hv : Outcome.ok (ε := TraverseError) v = Outcome.ok t' := h'
      simp only [Outcome.ok.injEq] at hv
      exact ⟨u, rfl, by rw [hass, hv]⟩

theorem inv_finalize {T : Type} {t t' : Tree T} {e : Nat}
    (h : Inv t) (hok : t.set_pack_entries_end_and_resolve_ref_offsets e = .ok t') :
    Inv t' := by
  obtain ⟨u, hres, hass⟩ := finalize_ok_inv hok
  obtain ⟨hsR, hsC, hls, hfut⟩ := resolve_ok_pres _ _ _ hres
  simp only at hsR hsC hls hfut
  have hoR : offs u.root_items = offs t.root_items := offs_eq_of_stripItems_eq hsR
  have hoC : offs u.child_items = offs t.child_items := offs_eq_of_stripItems_eq hsC
  have hlenC : u.child_items.length = t.child_items.length := length_eq_of_offs_eq hoC
  have hcountu := resolve_ok_count _ _ _ hres
  simp only at hcountu
  have hinvu : Inv u := by
    constructor
    · rw [hoR]; exact h.sortedR
    · rw [hoC]; exact h.sortedC
    · intro hn
      rw [hls] at hn
      obtain ⟨h₁, h₂⟩ := h.empty_of_none hn
      constructor
      · have : offs u.root_items = [] := by rw [hoR, h₁]; rfl
        simpa [offs] using this
      · have : offs u.child_items = [] := by rw [hoC, h₂]; rfl
        simpa [offs] using this
    · intro prev hprev
      have hopt := lastAdded_offset_congr hoR hoC hls
      rw [hprev] at hopt
      cases hlast : t.lastAdded with
      | none => rw [hlast] at hopt; simp at hopt
      | some prev' =>
        rw [hlast] at hopt
        simp only [Option.map_some', Option.some.injEq] at hopt
        obtain ⟨hb₁, hb₂⟩ := h.ub prev' hlast
        refine ⟨fun x hx => ?_, fun x hx => ?_⟩
        · rw [hoR] at hx; rw [hopt]; exact hb₁ x hx
        · rw [hoC] at hx; rw [hopt]; exact hb₂ x hx
    · intro c hc
      have hcpos : 0 < u.allChildren.count c := List.count_pos_iff_mem.mpr hc
      rw [hcountu c] at hcpos
      rw [hlenC]
      have hsplit : 0 < (Tree.allChildren { t with future_child_offsets := [] }).count c
          ∨ 0 < (t.future_child_offsets.map (fun p => toU32 p.2)).count c := by omega
      rcases hsplit with hl | hr
      · have hmem : c ∈ Tree.allChildren { t with future_child_offsets := [] } :=
          List.count_pos_iff_mem.mp hl
        have : c ∈ t.allChildren := by
          rw [allChildren_split] at hmem ⊢
          simpa using hmem
        exact h.bounds_children c this
      · have hmem : c ∈ t.future_child_offsets.map (fun p => toU32 p.2) :=
          List.count_pos_iff_mem.mp hr
        obtain ⟨p, hp, hpc⟩ := List.mem_map.mp hmem
        have := h.bounds_future p hp
        have : toU32 p.2 ≤ p.2 := Nat.mod_le _ _
        omega
    · intro p hp
      rw [hfut] at hp
      simp at hp
    · intro j
      have := hcountu j
      rw [hfut]
      simp only [List.map_nil, List.count_nil, Nat.add_zero]
      rw [this]
      have hbase := h.countEq j
      have hacbase : Tree.allChildren { t with future_child_offsets := [] }
          = t.allChildren := by
        rw [allChildren_split, allChildren_split]
      rw [hacbase, hlenC]
      omega
  obtain ⟨ht', -⟩ := assert_ok_inv hass
  rw [ht']
  exact Inv_closeTree hinvu e

theorem reachable_inv {T : Type} {t : Tree T} (h : Reachable t) : Inv t := by
  induction h with
  | init n t h =>
    unfold Tree.with_capacity at h
    simp only [Except.ok.injEq] at h
    rw [← h]
    exact Inv_empty
  | add_root_ok t t' o d _ hok ih => exact inv_add_root ih hok
  | add_child_ok t t' b o d _ hok ih => exact inv_add_child ih hok
  | finalize_ok t t' e _ hok ih => exact inv_finalize ih hok

/-! ## The long single-root chain used to exercise the u32 truncation -/

theorem binarySearch_singleton_self {T : Type} (x : Item T) :
    binarySearchByKey [x] x.offset = some 0 := by
  simp [binarySearchByKey, bsearchGo]

theorem range_map_succ {α : Type} (f : Nat → α) (n : Nat) :
    (List.range (n + 1)).map f = (List.range n).map f ++ [f n] := by
  rw [List.range_succ, List.map_append]
  rfl

theorem bigState_lastAdded (m : Nat) :
    (bigState (m + 1)).lastAdded
      = some { offset := m + 2, next_offset := 0, data := (), children := [] } := by
  unfold Tree.lastAdded bigState
  simp only [Nat.succ_ne_zero, if_false]
  rw [range_map_succ, List.getLast?_concat]
  simp

theorem map_range_succ_split {α : Type} (g f : Nat → α) (x : α) (n : Nat)
    (hcongr : ∀ i, i < n → g i = f i) (hlast : g n = x) :
    (List.range (n + 1)).map g = (List.range n).map f ++ [x] := by
  rw [List.range_succ, List.map_append]
  congr 1
  · exact List.map_congr_left (fun a ha => hcongr a (List.mem_range.mp ha))
  · simp [hlast]

theorem bigState_closeTree (m : Nat) :
    closeTree (bigState (m + 1)) (m + 3)
      = ⟨[⟨1, 2, (), (List.range (m + 1)).map toU32⟩],
         (List.range (m + 1)).map (fun i => ⟨i + 2, i + 3, (), []⟩),
         some NodeKind.Child, []⟩ := by
  have hsplit : (List.range (m + 1)).map
      (fun i => (⟨i + 2, if i + 1 = m + 1 then 0 else i + 3, (), []⟩ : Item Unit))
      = (List.range m).map (fun i => (⟨i + 2, i + 3, (), []⟩ : Item Unit))
        ++ [(⟨m + 2, 0, (), []⟩ : Item Unit)] := by
    apply map_range_succ_split
    · intro i hi
      rw [if_neg (by omega : ¬i + 1 = m + 1)]
    · rw [if_pos rfl]
  have hsplit' : (List.range (m + 1)).map (fun i => (⟨i + 2, i + 3, (), []⟩ : Item Unit))
      = (List.range m).map (fun i => (⟨i + 2, i + 3, (), []⟩ : Item Unit))
        ++ [(⟨m + 2, m + 3, (), []⟩ : Item Unit)] := by
    apply map_range_succ_split
    · intro i _; rfl
    · rfl
  unfold closeTree bigState
  simp only [Nat.succ_ne_zero, if_false]
  congr 1
  rw [hsplit, setLast_eq_concat _ _ _ (List.getLast?_concat _), List.dropLast_concat, hsplit']

theorem bigStep (n : Nat) :
    (bigState n).add_child 1 (n + 2) () = .ok (bigState (n + 1)) := by
  cases n with
  | zero => decide
  | succ m =>
    have hassert : (bigState (m + 1)).assert_is_incrementing_and_update_next_offset (m + 3)
        = .ok (⟨[⟨1, 2, (), (List.range (m + 1)).map toU32⟩],
            (List.range (m + 1)).map (fun i => ⟨i + 2, i + 3, (), []⟩),
            some NodeKind.Child, []⟩ : Tree Unit) := by
      rw [assert_ok _ _ _ (bigState_lastAdded m) (by simp)]
      rw [bigState_closeTree m]
    have hfc : binarySearchByKey
        ((List.range (m + 1)).map (fun i => (⟨i + 2, i + 3, (), []⟩ : Item Unit))) 1
        = none := by
      apply binarySearch_none_of_not_mem
      simp only [offs, List.map_map, List.mem_map, Function.comp]
      rintro ⟨a, -, ha⟩
      simp at ha
    have hfr : binarySearchByKey
        [(⟨1, 2, (), (List.range (m + 1)).map toU32⟩ : Item Unit)] 1 = some 0 :=
      binarySearch_singleton_self ⟨1, 2, (), (List.range (m + 1)).map toU32⟩
    have hres := add_child_foundR () hassert hfc hfr
    rw [hres]
    congr 1
    unfold bigState
    simp only [Nat.succ_ne_zero, if_false]
    congr 1
    · simp only [modifyIdx, Item.pushChild, List.length_map, List.length_range]
      rw [map_range_succ_split toU32 toU32 (toU32 (m + 1)) (m + 1) (fun _ _ => rfl) rfl]
    · symm
      apply map_range_succ_split
      · intro i hi
        rw [if_neg (by omega : ¬i + 1 = m + 1 + 1)]
      · rw [if_pos rfl]

theorem reach_bigState (n : Nat) : Reachable (bigState n) := by
  induction n with
  | zero =>
    refine Reachable.add_root_ok ⟨[], [], none, []⟩ _ 1 ()
      (Reachable.init 0 _ rfl) (by decide)
  | succ m ih => exact Reachable.add_child_ok _ _ 1 (m + 2) () ih (bigStep m)

theorem bigFin (m : Nat) :
    (bigState (m + 1)).set_pack_entries_end_and_resolve_ref_offsets (m + 3)
      = .ok (bigFinal (m + 1)) := by
  unfold Tree.set_pack_entries_end_and_resolve_ref_offsets
  have hfut : (bigState (m + 1)).future_child_offsets = [] := rfl
  rw [hfut]
  have hbase : ({ bigState (m + 1) with future_child_offsets := [] } : Tree Unit)
      = bigState (m + 1) := by
    unfold bigState
    rfl
  rw [hbase]
  have hres : Tree.resolveRefOffsets (bigState (m + 1)) ([] : List (Nat × Nat))
      = .ok (bigState (m + 1)) := rfl
  simp only [hres]
  have hassert : (bigState (m + 1)).assert_is_incrementing_and_update_next_offset (m + 3)
      = .ok (⟨[⟨1, 2, (), (List.range (m + 1)).map toU32⟩],
          (List.range (m + 1)).map (fun i => ⟨i + 2, i + 3, (), []⟩),
          some NodeKind.Child, []⟩ : Tree Unit) := by
    rw [assert_ok _ _ _ (bigState_lastAdded m) (by simp)]
    rw [bigState_closeTree m]
  simp only [hassert]
  rfl

theorem count_range (j n : Nat) : (List.range n).count j = if j < n then 1 else 0 := by
  induction n with
  | zero => simp
  | succ n ih =>
    rw [List.range_succ, List.count_append, ih]
    by_cases h : j = n
    · subst h
      simp
    · have : List.count j [n] = 0 := by
        simp [List.count_singleton]
        omega
      rw [this]
      by_cases h' : j < n
      · rw [if_pos h', if_pos (by omega)]
      · rw [if_neg h', if_neg (by omega)]

theorem map_toU32_range_of_le {n : Nat} (h : n ≤ 2 ^ 32) :
    (List.range n).map toU32 = List.range n := by
  have : (List.range n).map toU32 = (List.range n).map id := by
    apply List.map_congr_left
    intro a ha
    have : a < n := List.mem_range.mp ha
    unfold toU32
    exact Nat.mod_eq_of_lt (by omega)
  rw [this, List.map_id]

theorem flatten_map_nil {α : Type} (l : List α) :
    (l.map (fun _ => ([] : List Nat))).flatten = [] := by
  induction l with
  | nil => rfl
  | cons a rest ih => simp [ih]

theorem bigFinal_allChildren (n : Nat) :
    (bigFinal n).allChildren = (List.range n).map toU32 := by
  unfold Tree.allChildren bigFinal
  simp [List.map_map, Function.comp, flatten_map_nil]

theorem count_toU32_big :
    ((List.range (2 ^ 32 + 1)).map toU32).count 0 = 2 := by
  rw [range_map_succ toU32 (2 ^ 32)]
  rw [List.count_append]
  rw [map_toU32_range_of_le (le_refl _)]
  rw [count_range]
  have h1 : toU32 (2 ^ 32) = 0 := by
    unfold toU32
    simp
  rw [h1]
  simp

/-! ## Finalize plumbing -/

theorem finalize_eq_of_parts {T : Type} {t u v : Tree T} {e : Nat}
    (hres : Tree.resolveRefOffsets { t with future_child_offsets := [] }
      t.future_child_offsets = .ok u)
    (hass : u.assert_is_incrementing_and_update_next_offset e = .ok v) :
    t.set_pack_entries_end_and_resolve_ref_offsets e = .ok v := by
  unfold Tree.set_pack_entries_end_and_resolve_ref_offsets
  simp only [hres]
  simp only [hass]

theorem finalize_panic_of_parts {T : Type} {t u w : Tree T} {e : Nat} {e' : Error}
    (hres : Tree.resolveRefOffsets { t with future_child_offsets := [] }
      t.future_child_offsets = .ok u)
    (hass : u.assert_is_incrementing_and_update_next_offset e = .err e' w) :
    t.set_pack_entries_end_and_resolve_ref_offsets e = .panic := by
  unfold Tree.set_pack_entries_end_and_resolve_ref_offsets
  simp only [hres]
  simp only [hass]

theorem finalize_err_of_resolve_err {T : Type} {t u' : Tree T} {e : Nat}
    {er : TraverseError}
    (hres : Tree.resolveRefOffsets { t with future_child_offsets := [] }
      t.future_child_offsets = .err er u') :
    t.set_pack_entries_end_and_resolve_ref_offsets e = .err er u' := by
  unfold Tree.set_pack_entries_end_and_resolve_ref_offsets
  simp only [hres]

theorem finalize_no_err_of_resolve_ok {T : Type} {t u : Tree T} {e : Nat}
    (hres : Tree.resolveRefOffsets { t with future_child_offsets := [] }
      t.future_child_offsets = .ok u) :
    ∀ (er : TraverseError) (t'' : Tree T),
      t.set_pack_entries_end_and_resolve_ref_offsets e ≠ .err er t'' := by
  intro er t''
  unfold Tree.set_pack_entries_end_and_resolve_ref_offsets
  simp only [hres]
  cases hass : u.assert_is_incrementing_and_update_next_offset e <;> simp [hass]

theorem finalize_ok_future_nil {T : Type} {t t' : Tree T} {e : Nat}
    (h : t.set_pack_entries_end_and_resolve_ref_offsets e = .ok t') :
    t'.future_child_offsets = [] := by
  obtain ⟨u, hres, hass⟩ := finalize_ok_inv h
  obtain ⟨-, -, -, hfut⟩ := resolve_ok_pres _ _ _ hres
  obtain ⟨ht', -⟩ := assert_ok_inv hass
  rw [ht', closeTree_future]
  simpa using hfut

/-! ## The claims -/

/-- C1: on a tree with a previously added item, an `add_root` or `add_child`
call whose offset is less than or equal to that item's offset fails with the
`NonMonotonicOffset` error (`InvariantIncreasingPackOffset`, carrying the
previous and the offending offset) and leaves the tree — root items, child
items, worklist and last-seen marker — exactly unchanged; a call with a
strictly greater offset does not fail this check. -/
theorem C1_nonmonotonic_offset_checked {T : Type} (t : Tree T) (prev : Item T)
    (b o : Nat) (d : T) (hprev : t.lastAdded = some prev) :
    (o ≤ prev.offset →
      t.add_root o d = .err (.InvariantIncreasingPackOffset prev.offset o) t ∧
      t.add_child b o d = .err (.InvariantIncreasingPackOffset prev.offset o) t) ∧
    (prev.offset < o →
      (∃ t', t.add_root o d = .ok t') ∧ (∃ t', t.add_child b o d = .ok t')) := by
  constructor
  · intro ho
    have herr := assert_err t prev o hprev ho
    exact ⟨add_root_of_assert_err d herr, add_child_of_assert_err d herr⟩
  · intro ho
    have hok := assert_ok t prev o hprev ho
    exact ⟨⟨_, add_root_of_assert_ok d hok⟩, add_child_ok_exists d hok⟩

/-- Witness for C1 at a concrete tree holding one root at offset 5, with the
offending offset 3 and base offset 7. -/
theorem C1_witness :
    ((3 : Nat) ≤ 5 →
      tOneRoot.add_root 3 () = .err (.InvariantIncreasingPackOffset 5 3) tOneRoot ∧
      tOneRoot.add_child 7 3 () = .err (.InvariantIncreasingPackOffset 5 3) tOneRoot) ∧
    ((5 : Nat) < 3 →
      (∃ t', tOneRoot.add_root 3 () = .ok t') ∧
      (∃ t', tOneRoot.add_child 7 3 () = .ok t')) :=
  C1_nonmonotonic_offset_checked tOneRoot ⟨5, 0, (), []⟩ 7 3 () rfl

/-- C3: at every reachable state of the tree, every index stored in any
item's `children` list, and every child index stored in the
forward-reference worklist, is strictly less than the length of the
child-items array. -/
theorem C3_indices_in_bounds {T : Type} (t : Tree T) (h : Reachable t) :
    (∀ c ∈ t.allChildren, c < t.child_items.length) ∧
    (∀ p ∈ t.future_child_offsets, p.2 < t.child_items.length) := by
  have hi := reachable_inv h
  exact ⟨hi.bounds_children, hi.bounds_future⟩

/-- Witness for C3 at the reachable state reached by `add_root(10, ())` then
`add_child(999, 20, ())`, which has a nonempty worklist. -/
theorem C3_witness :
    (∀ c ∈ tRefUnresolved.allChildren, c < tRefUnresolved.child_items.length) ∧
    (∀ p ∈ tRefUnresolved.future_child_offsets, p.2 < tRefUnresolved.child_items.length) :=
  C3_indices_in_bounds tRefUnresolved
    (Reachable.add_child_ok ⟨[⟨10, 0, (), []⟩], [], some NodeKind.Root, []⟩
      tRefUnresolved 999 20 ()
      (Reachable.add_root_ok ⟨[], [], none, []⟩
        ⟨[⟨10, 0, (), []⟩], [], some NodeKind.Root, []⟩ 10 ()
        (Reachable.init 0 ⟨[], [], none, []⟩ rfl) (by decide))
      (by decide))

/-- C7: the concrete call sequence `add_root(12, dataA)`,
`add_child(12, 40, dataB)`, `add_child(40, 90, dataC)`, `finalize(120)`
(with `dataA/B/C = 100/101/102`) succeeds and produces exactly one root
(offset 12, next_offset 40, children `[0]`) and two children in order
(offset 40 with next_offset 90 and children `[1]`, then offset 90 with
next_offset 120 and no children). -/
theorem C7_concrete_scenario :
    (⟨[], [], none, []⟩ : Tree Nat).add_root 12 100 = .ok c7s1 ∧
    c7s1.add_child 12 40 101 = .ok c7s2 ∧
    c7s2.add_child 40 90 102 = .ok c7s3 ∧
    c7s3.set_pack_entries_end_and_resolve_ref_offsets 120 = .ok c7s4 ∧
    c7s4 = ⟨[⟨12, 40, 100, [0]⟩], [⟨40, 90, 101, [1]⟩, ⟨90, 120, 102, []⟩],
      some NodeKind.Child, []⟩ := by
  decide

/-- C10: a child registered via `add_child` whose declared base offset
equals its own offset (and matches no previously added item) is accepted;
at finalize time the pending reference resolves to the child itself, so
finalize succeeds and the child's index is appended to its own `children`
list — a one-node cycle. -/
theorem C10_self_referential_base :
    (⟨[], [], none, []⟩ : Tree Unit).add_child 5 5 () = .ok tSelfBase ∧
    tSelfBase.set_pack_entries_end_and_resolve_ref_offsets 9
      = .ok ⟨[], [⟨5, 9, (), [0]⟩], some NodeKind.Child, []⟩ := by
  decide

/-- C5: an `add_child(base_offset, offset, data)` call that passes the
monotonicity check resolves its base by binary-searching the child-items
array by offset first, then the root-items array (searching the pre-call
arrays — the span-closing does not change any offset); a found item's
`children` list gains the new child's index during this same call, and if
no match is found the pair `(base_offset, new_child_index)` is pushed onto
the forward-reference worklist; in all three cases the new item itself is
appended to the child-items array. -/
theorem C5_add_child_base_resolution {T : Type} (t u : Tree T) (b o : Nat) (d : T)
    (hassert : t.assert_is_incrementing_and_update_next_offset o = .ok u) :
    t.add_child b o d = .ok (
      match binarySearchByKey t.child_items b with
      | some i =>
        { u with
          last_seen := some NodeKind.Child,
          child_items := modifyIdx u.child_items i (fun it => it.pushChild (toU32 t.child_items.length)) ++ [⟨o, 0, d, []⟩] }
      | none =>
        match binarySearchByKey t.root_items b with
        | some i =>
          { u with
            last_seen := some NodeKind.Child,
            root_items := modifyIdx u.root_items i (fun it => it.pushChild (toU32 t.child_items.length)),
            child_items := u.child_items ++ [⟨o, 0, d, []⟩] }
        | none =>
          { u with
            last_seen := some NodeKind.Child,
            child_items := u.child_items ++ [⟨o, 0, d, []⟩],
            future_child_offsets := u.future_child_offsets ++ [(b, t.child_items.length)] }) := by
  obtain ⟨hu, -⟩ := assert_ok_inv hassert
  have hoC : offs u.child_items = offs t.child_items := by rw [hu]; exact closeTree_offsC t o
  have hoR : offs u.root_items = offs t.root_items := by rw [hu]; exact closeTree_offsR t o
  have hlen : u.child_items.length = t.child_items.length := length_eq_of_offs_eq hoC
  cases hfc : binarySearchByKey t.child_items b with
  | some i =>
    have hfc' : binarySearchByKey u.child_items b = some i := by
      rw [binarySearch_congr hoC b]; exact hfc
    rw [add_child_foundC d hassert hfc', hlen]
  | none =>
    have hfc' : binarySearchByKey u.child_items b = none := by
      rw [binarySearch_congr hoC b]; exact hfc
    cases hfr : binarySearchByKey t.root_items b with
    | some i =>
      have hfr' : binarySearchByKey u.root_items b = some i := by
        rw [binarySearch_congr hoR b]; exact hfr
      rw [add_child_foundR d hassert hfc' hfr', hlen]
    | none =>
      have hfr' : binarySearchByKey u.root_items b = none := by
        rw [binarySearch_congr hoR b]; exact hfr
      rw [add_child_missing d hassert hfc' hfr', hlen]

/-- Witness for C5 at a fresh tree: the base offset 1 is not found, so the
pair `(1, 0)` lands on the worklist and the child is appended. -/
theorem C5_witness :
    (⟨[], [], none, []⟩ : Tree Nat).add_child 1 2 0
      = .ok ⟨[], [⟨2, 0, 0, []⟩], some NodeKind.Child, [(1, 0)]⟩ :=
  C5_add_child_base_resolution ⟨[], [], none, []⟩ ⟨[], [], none, []⟩ 1 2 0 rfl

/-- C2 (amended): after a successful finalize on a reachable tree with at
most `2^32` child items, every child index below the child count appears in
the children lists exactly once overall (hence in exactly one item's list),
no other value appears at all, and the forward-reference worklist is empty.
The bound is needed because child indices are truncated `as u32` when
stored. -/
theorem C2_exclusivity_after_finalize {T : Type} (t t' : Tree T) (e : Nat)
    (hr : Reachable t)
    (hok : t.set_pack_entries_end_and_resolve_ref_offsets e = .ok t')
    (hcap : t'.child_items.length ≤ 2 ^ 32) :
    (∀ j, t'.allChildren.count j = if j < t'.child_items.length then 1 else 0) ∧
    t'.future_child_offsets = [] := by
  have hr' : Reachable t' := Reachable.finalize_ok t t' e hr hok
  have hi := reachable_inv hr'
  have hfut := finalize_ok_future_nil hok
  refine ⟨?_, hfut⟩
  intro j
  have hc := hi.countEq j
  rw [hfut] at hc
  simp only [List.map_nil, List.count_nil, Nat.add_zero] at hc
  rw [map_toU32_range_of_le hcap] at hc
  rw [hc, count_range]

/-- Witness for C2 at the finalized single-root, single-child tree. -/
theorem C2_witness :
    (∀ j, (bigFinal 1).allChildren.count j
      = if j < (bigFinal 1).child_items.length then 1 else 0) ∧
    (bigFinal 1).future_child_offsets = [] :=
  C2_exclusivity_after_finalize (bigState 1) (bigFinal 1) 3
    (reach_bigState 1) (bigFin 0) (by decide)

/-- Counterexample to C2 as stated: after `add_root(1, ())` and `2^32 + 1`
monotone `add_child` calls all based on the root, finalize succeeds, yet
child index 0 appears twice in the root's children list (the index
`2^32` was truncated `as u32` to 0), so a child index appears in an item's
children list twice even though the worklist is empty. -/
theorem C2_counterexample :
    Reachable (bigState (2 ^ 32 + 1)) ∧
    (bigState (2 ^ 32 + 1)).set_pack_entries_end_and_resolve_ref_offsets (2 ^ 32 + 3)
      = .ok (bigFinal (2 ^ 32 + 1)) ∧
    (bigFinal (2 ^ 32 + 1)).future_child_offsets = [] ∧
    0 < (bigFinal (2 ^ 32 + 1)).child_items.length ∧
    (bigFinal (2 ^ 32 + 1)).allChildren.count 0 = 2 := by
  refine ⟨reach_bigState _, bigFin (2 ^ 32), rfl, ?_, ?_⟩
  · show 0 < (bigFinal (2 ^ 32 + 1)).child_items.length
    unfold bigFinal
    simp
  · rw [bigFinal_allChildren]
    exact count_toU32_big

/-- C4: on a reachable tree, if some pending forward reference's base
offset matches no item's offset in either array by the time finalize runs,
finalize returns `OutOfPackRefDelta` carrying the base offset of such an
unmatched pending child; conversely, if every pending base offset matches
some item, finalize never returns this error. -/
theorem C4_out_of_pack_ref_delta {T : Type} (t : Tree T) (e : Nat) (hr : Reachable t) :
    ((∃ p ∈ t.future_child_offsets, ¬t.hasItemAtOffset p.1) →
      ∃ b i t'', (b, i) ∈ t.future_child_offsets ∧ ¬t.hasItemAtOffset b ∧
        t.set_pack_entries_end_and_resolve_ref_offsets e
          = .err (.OutOfPackRefDelta b) t'') ∧
    ((∀ p ∈ t.future_child_offsets, t.hasItemAtOffset p.1) →
      ∀ (b : Nat) (t'' : Tree T),
        t.set_pack_entries_end_and_resolve_ref_offsets e
          ≠ .err (.OutOfPackRefDelta b) t'') := by
  have hi := reachable_inv hr
  have hsR : List.Pairwise (· < ·)
      (offs ({ t with future_child_offsets := [] } : Tree T).root_items) := hi.sortedR
  have hsC : List.Pairwise (· < ·)
      (offs ({ t with future_child_offsets := [] } : Tree T).child_items) := hi.sortedC
  constructor
  · rintro ⟨p, hp, hnm⟩
    have hnm' : p.1 ∉ offs ({ t with future_child_offsets := [] } : Tree T).child_items ∧
        p.1 ∉ offs ({ t with future_child_offsets := [] } : Tree T).root_items := by
      unfold Tree.hasItemAtOffset at hnm
      push_neg at hnm
      exact hnm
    obtain ⟨b, ci, u', hmem, h₁, h₂, hres⟩ :=
      resolve_err_of_unmatched t.future_child_offsets
        ({ t with future_child_offsets := [] } : Tree T) hsR hsC ⟨p, hp, hnm'⟩
    refine ⟨b, ci, u', hmem, ?_, finalize_err_of_resolve_err hres⟩
    intro hc
    unfold Tree.hasItemAtOffset at hc
    exact hc.elim (fun hx => h₁ hx) (fun hx => h₂ hx)
  · intro hall
    obtain ⟨u, hres⟩ := resolve_ok_of_matched t.future_child_offsets
      ({ t with future_child_offsets := [] } : Tree T) hsR hsC
      (fun p hp => hall p hp)
    intro b t''
    exact finalize_no_err_of_resolve_ok hres (.OutOfPackRefDelta b) t''

/-- Witness for C4 at the reachable tree with one pending reference to the
unmatched base offset 999. -/
theorem C4_witness :
    ((∃ p ∈ tRefUnresolved.future_child_offsets, ¬tRefUnresolved.hasItemAtOffset p.1) →
      ∃ b i t'', (b, i) ∈ tRefUnresolved.future_child_offsets ∧
        ¬tRefUnresolved.hasItemAtOffset b ∧
        tRefUnresolved.set_pack_entries_end_and_resolve_ref_offsets 25
          = .err (.OutOfPackRefDelta b) t'') ∧
    ((∀ p ∈ tRefUnresolved.future_child_offsets, tRefUnresolved.hasItemAtOffset p.1) →
      ∀ (b : Nat) (t'' : Tree Unit),
        tRefUnresolved.set_pack_entries_end_and_resolve_ref_offsets 25
          ≠ .err (.OutOfPackRefDelta b) t'') :=
  C4_out_of_pack_ref_delta tRefUnresolved 25
    (Reachable.add_child_ok ⟨[⟨10, 0, (), []⟩], [], some NodeKind.Root, []⟩
      tRefUnresolved 999 20 ()
      (Reachable.add_root_ok ⟨[], [], none, []⟩
        ⟨[⟨10, 0, (), []⟩], [], some NodeKind.Root, []⟩ 10 ()
        (Reachable.init 0 ⟨[], [], none, []⟩ rfl) (by decide))
      (by decide))

/-- Counterexample to C9 as stated: on the reachable tree with an
unresolvable pending reference (base 999), finalize with
`pack_entries_end = 15 ≤ 20` (the most recently added offset) returns the
`OutOfPackRefDelta` error value — it does not panic, because the worklist
drain fails before the span-closing `expect` is reached. -/
theorem C9_counterexample :
    Reachable tRefUnresolved ∧
    tRefUnresolved.lastAdded = some ⟨20, 0, (), []⟩ ∧
    (15 : Nat) ≤ 20 ∧
    tRefUnresolved.set_pack_entries_end_and_resolve_ref_offsets 15
      = .err (.OutOfPackRefDelta 999)
        ⟨[⟨10, 20, (), []⟩], [⟨20, 0, (), []⟩], some NodeKind.Child, []⟩ ∧
    tRefUnresolved.set_pack_entries_end_and_resolve_ref_offsets 15 ≠ .panic := by
  refine ⟨Reachable.add_child_ok ⟨[⟨10, 0, (), []⟩], [], some NodeKind.Root, []⟩
      tRefUnresolved 999 20 ()
      (Reachable.add_root_ok ⟨[], [], none, []⟩
        ⟨[⟨10, 0, (), []⟩], [], some NodeKind.Root, []⟩ 10 ()
        (Reachable.init 0 ⟨[], [], none, []⟩ rfl) (by decide))
      (by decide), by decide, by decide, by decide, by decide⟩

/-- C9 (amended): on a reachable tree with at least one item whose pending
forward references all match some item (in particular when the worklist is
empty), calling finalize with `pack_entries_end` less than or equal to the
most recently added item's offset panics (the monotonicity failure on the
final span-closing is converted into a panic via `expect`) instead of
returning an error. -/
theorem C9_finalize_panics_on_small_end {T : Type} (t : Tree T) (prev : Item T)
    (e : Nat) (hr : Reachable t) (hprev : t.lastAdded = some prev)
    (he : e ≤ prev.offset)
    (hres : ∀ p ∈ t.future_child_offsets, t.hasItemAtOffset p.1) :
    t.set_pack_entries_end_and_resolve_ref_offsets e = .panic := by
  have hi := reachable_inv hr
  obtain ⟨u, hresok⟩ := resolve_ok_of_matched t.future_child_offsets
    ({ t with future_child_offsets := [] } : Tree T) hi.sortedR hi.sortedC
    (fun p hp => hres p hp)
  obtain ⟨hsR, hsC, hls, -⟩ := resolve_ok_pres _ _ _ hresok
  have hopt : Option.map stripItem u.lastAdded
      = Option.map stripItem ({ t with future_child_offsets := [] } : Tree T).lastAdded :=
    lastAdded_strip_congr hsR hsC hls
  have hbase : ({ t with future_child_offsets := [] } : Tree T).lastAdded = t.lastAdded := rfl
  rw [hbase, hprev] at hopt
  cases hlast : u.lastAdded with
  | none => rw [hlast] at hopt; simp at hopt
  | some q =>
    rw [hlast] at hopt
    simp only [Option.map_some', Option.some.injEq] at hopt
    have hqoff : q.offset = prev.offset := congrArg Prod.fst hopt
    have herr := assert_err u q e hlast (by omega)
    exact finalize_panic_of_parts hresok herr

/-- Witness for C9 at the finalized single-root tree: a second finalize with
`pack_entries_end = 3 ≤ 5` panics. -/
theorem C9_witness :
    tClosedRoot.set_pack_entries_end_and_resolve_ref_offsets 3 = .panic :=
  C9_finalize_panics_on_small_end tClosedRoot ⟨5, 9, (), []⟩ 3
    (Reachable.finalize_ok tOneRoot tClosedRoot 9
      (Reachable.add_root_ok ⟨[], [], none, []⟩ tOneRoot 5 ()
        (Reachable.init 0 ⟨[], [], none, []⟩ rfl) (by decide))
      (by decide))
    rfl (by decide) (by decide)

/-- Counterexample to C6 as stated: on the tree with roots at offsets 10 and
15, the call `add_child(10, 20, ())` succeeds; besides closing the span of
the most recently added item (the offset-15 root) and appending the new
child, it also changes the `children` field of the offset-10 root (an
"other item") from `[]` to `[0]`, so not all fields of all other items are
unchanged. -/
theorem C6_counterexample :
    tTwoRoots.lastAdded = some ⟨15, 0, (), []⟩ ∧
    (15 : Nat) < 20 ∧
    tTwoRoots.add_child 10 20 ()
      = .ok ⟨[⟨10, 15, (), [0]⟩, ⟨15, 20, (), []⟩], [⟨20, 0, (), []⟩],
          some NodeKind.Child, []⟩ ∧
    tTwoRoots.root_items.get? 0 = some ⟨10, 15, (), []⟩ ∧
    (⟨[⟨10, 15, (), [0]⟩, ⟨15, 20, (), []⟩], [⟨20, 0, (), []⟩],
        some NodeKind.Child, []⟩ : Tree Unit).root_items.get? 0
      = some ⟨10, 15, (), [0]⟩ := by
  decide

/-- C6 (amended): a successful `add_root` or `add_child` call with offset
`o` on a tree with a previously added item sets the most recently added
item's `next_offset` to `o` and changes none of its other fields (`R` and
`C` below are the original arrays with only that one field updated), and
appends the new item with `next_offset = 0`; all fields of all other items
are unchanged, except that `add_child` additionally appends the new child's
truncated index to the `children` list of the one item resolved as its
base, or pushes the pair onto the worklist when no base matches. -/
theorem C6_span_closing_frame {T : Type} (t : Tree T) (prev : Item T) (b o : Nat)
    (d : T) (R C : List (Item T))
    (hprev : t.lastAdded = some prev) (ho : prev.offset < o)
    (hR : R = if t.last_seen = some NodeKind.Root
      then t.root_items.dropLast ++ [{ prev with next_offset := o }] else t.root_items)
    (hC : C = if t.last_seen = some NodeKind.Child
      then t.child_items.dropLast ++ [{ prev with next_offset := o }] else t.child_items) :
    t.add_root o d = .ok ⟨R ++ [⟨o, 0, d, []⟩], C, some NodeKind.Root,
      t.future_child_offsets⟩ ∧
    t.add_child b o d = .ok (
      match binarySearchByKey C b with
      | some i =>
        ⟨R, modifyIdx C i (fun it => it.pushChild (toU32 t.child_items.length)) ++ [⟨o, 0, d, []⟩], some NodeKind.Child, t.future_child_offsets⟩
      | none =>
        match binarySearchByKey R b with
        | some i =>
          ⟨modifyIdx R i (fun it => it.pushChild (toU32 t.child_items.length)), C ++ [⟨o, 0, d, []⟩], some NodeKind.Child, t.future_child_offsets⟩
        | none =>
          ⟨R, C ++ [⟨o, 0, d, []⟩], some NodeKind.Child, t.future_child_offsets ++ [(b, t.child_items.length)]⟩) := by
  have hassert := assert_ok t prev o hprev ho
  have husR : (closeTree t o).root_items = R := by
    rw [hR]
    unfold closeTree
    cases hls : t.last_seen with
    | none =>
      rw [lastAdded_of_none t hls] at hprev
      simp at hprev
    | some k =>
      cases k with
      | Root =>
        rw [lastAdded_of_root t hls] at hprev
        rw [if_pos rfl]
        exact setLast_eq_concat _ _ _ hprev
      | Child =>
        rw [if_neg (by simp)]
  have husC : (closeTree t o).child_items = C := by
    rw [hC]
    unfold closeTree
    cases hls : t.last_seen with
    | none =>
      rw [lastAdded_of_none t hls] at hprev
      simp at hprev
    | some k =>
      cases k with
      | Root =>
        rw [if_neg (by simp)]
      | Child =>
        rw [lastAdded_of_child t hls] at hprev
        rw [if_pos rfl]
        exact setLast_eq_concat _ _ _ hprev
  have hlen : (closeTree t o).child_items.length = t.child_items.length :=
    closeTree_lengthC t o
  have huval : closeTree t o = ⟨R, C, t.last_seen, t.future_child_offsets⟩ := by
    have : closeTree t o = ⟨(closeTree t o).root_items, (closeTree t o).child_items,
        (closeTree t o).last_seen, (closeTree t o).future_child_offsets⟩ := rfl
    rw [this, husR, husC, closeTree_last_seen, closeTree_future]
  constructor
  · rw [add_root_of_assert_ok d hassert, huval]
  · cases hfc : binarySearchByKey C b with
    | some i =>
      have hfc' : binarySearchByKey (closeTree t o).child_items b = some i := by
        rw [husC]; exact hfc
      rw [add_child_foundC d hassert hfc', hlen, huval]
    | none =>
      have hfc' : binarySearchByKey (closeTree t o).child_items b = none := by
        rw [husC]; exact hfc
      cases hfr : binarySearchByKey R b with
      | some i =>
        have hfr' : binarySearchByKey (closeTree t o).root_items b = some i := by
          rw [husR]; exact hfr
        rw [add_child_foundR d hassert hfc' hfr', hlen, huval]
      | none =>
        have hfr' : binarySearchByKey (closeTree t o).root_items b = none := by
          rw [husR]; exact hfr
        rw [add_child_missing d hassert hfc' hfr', hlen, huval]

/-- Witness for C6 at the single-root tree, with offset 9 and base offset 7
(not found, so the child's pair lands on the worklist). -/
theorem C6_witness :
    tOneRoot.add_root 9 ()
      = .ok ⟨[⟨5, 9, (), []⟩, ⟨9, 0, (), []⟩], [], some NodeKind.Root, []⟩ ∧
    tOneRoot.add_child 7 9 ()
      = .ok (
        match binarySearchByKey ([] : List (Item Unit)) 7 with
        | some i =>
          ⟨[⟨5, 9, (), []⟩], modifyIdx [] i (fun it => it.pushChild (toU32 0)) ++ [⟨9, 0, (), []⟩], some NodeKind.Child, []⟩
        | none =>
          match binarySearchByKey [(⟨5, 9, (), []⟩ : Item Unit)] 7 with
          | some i =>
            ⟨modifyIdx [⟨5, 9, (), []⟩] i (fun it => it.pushChild (toU32 0)), [] ++ [⟨9, 0, (), []⟩], some NodeKind.Child, []⟩
          | none =>
            ⟨[⟨5, 9, (), []⟩], [] ++ [⟨9, 0, (), []⟩], some NodeKind.Child, [] ++ [(7, 0)]⟩) :=
  C6_span_closing_frame tOneRoot ⟨5, 0, (), []⟩ 7 9 () [⟨5, 9, (), []⟩] []
    rfl (by decide) (by decide) (by decide)

/-- Counterexample to C8 as stated: on the finalized single-root tree
(`tClosedRoot`, obtained by a successful finalize with end 9), a second
finalize with the larger end 14 succeeds and mutates the root's
`next_offset`, and `add_root(20, ())` also succeeds and mutates the
finalized graph — nothing in the builder's state design prevents further
mutation after a successful finalize. -/
theorem C8_counterexample :
    Reachable tOneRoot ∧
    tOneRoot.set_pack_entries_end_and_resolve_ref_offsets 9 = .ok tClosedRoot ∧
    tClosedRoot.set_pack_entries_end_and_resolve_ref_offsets 14
      = .ok ⟨[⟨5, 14, (), []⟩], [], some NodeKind.Root, []⟩ ∧
    tClosedRoot.add_root 20 ()
      = .ok ⟨[⟨5, 20, (), []⟩, ⟨20, 0, (), []⟩], [], some NodeKind.Root, []⟩ ∧
    (⟨[⟨5, 20, (), []⟩, ⟨20, 0, (), []⟩], [], some NodeKind.Root, []⟩ : Tree Unit)
      ≠ tClosedRoot := by
  refine ⟨Reachable.add_root_ok ⟨[], [], none, []⟩ tOneRoot 5 ()
    (Reachable.init 0 ⟨[], [], none, []⟩ rfl) (by decide),
    by decide, by decide, by decide, by decide⟩

/-- C8 (amended): a successful finalize is not a one-shot transition and
does not freeze the graph: on the finalized tree, `add_root` with an offset
above the last item's offset succeeds and appends a new root, and a second
finalize call with such an offset also succeeds. Immutability after
finalize is provided only by the traversal consuming the tree by value
(`take_root_and_child`), not by any check in the builder. -/
theorem C8_post_finalize_mutability {T : Type} (t t' : Tree T) (e : Nat)
    (q : Item T) (o : Nat) (d : T)
    (hfin : t.set_pack_entries_end_and_resolve_ref_offsets e = .ok t')
    (hq : t'.lastAdded = some q) (ho : q.offset < o) :
    (∃ t'', t'.add_root o d = .ok t'' ∧
      t''.root_items.length = t'.root_items.length + 1) ∧
    (∃ t''', t'.set_pack_entries_end_and_resolve_ref_offsets o = .ok t''') := by
  constructor
  · have hok := assert_ok t' q o hq ho
    refine ⟨_, add_root_of_assert_ok d hok, ?_⟩
    simp [closeTree_lengthR]
  · have hfut := finalize_ok_future_nil hfin
    have hres : Tree.resolveRefOffsets { t' with future_child_offsets := [] }
        t'.future_child_offsets = .ok { t' with future_child_offsets := [] } := by
      rw [hfut]
      rfl
    have hq' : ({ t' with future_child_offsets := ([] : List (Nat × Nat)) } : Tree T).lastAdded
        = some q := hq
    have hass := assert_ok _ q o hq' ho
    exact ⟨_, finalize_eq_of_parts hres hass⟩

/-- Witness for C8 at the finalized single-root tree with new offset 12. -/
theorem C8_witness :
    (∃ t'', tClosedRoot.add_root 12 () = .ok t'' ∧
      t''.root_items.length = tClosedRoot.root_items.length + 1) ∧
    (∃ t''', tClosedRoot.set_pack_entries_end_and_resolve_ref_offsets 12 = .ok t''') :=
  C8_post_finalize_mutability tOneRoot tClosedRoot 9 ⟨5, 9, (), []⟩ 12 ()
    (by decide) rfl (by decide)

end GixPack
